import Mathlib

/-!
Verification development for the BioFlow sequence/k-mer/alignment core
(bioflow/sequence.py, bioflow/kmer.py, bioflow/alignment.py).

Shallow embedding conventions:
- Python strings are modelled as `List Char`; `str.upper` as a character map.
- Python exceptions become `Except` with a dedicated error enumeration;
  functions without a raise path stay total.
- Python dicts (insertion ordered, unique keys) are modelled as association
  lists where updating an existing key rewrites its first binding in place
  and a fresh key is appended at the end.
- The dynamic-programming score matrices are modelled as functions built row
  by row, mirroring the fill loops that compute row `i` from row `i-1`;
  the score-only variant keeps its two-row list representation.
-/

namespace BioFlow

/-- Enumeration of sequence kinds, mirroring SequenceType in sequence.py. -/
inductive SequenceType where
  | DNA
  | RNA
  | UNKNOWN
deriving DecidableEq

/-- Error outcomes of sequence construction and transformation.  The Python
code raises EmptySequenceError, InvalidBaseError(position, found) and
ValueError for a non-DNA input to a DNA-only transformation; the spec calls
the latter WrongSequenceKind. -/
inductive SeqError where
  | emptySequence
  | invalidBase (position : Nat) (found : Char)
  | wrongSequenceKind
deriving DecidableEq

/-- Character-level model of Python str.upper (ASCII case folding). -/
def pyUpper (c : Char) : Char := c.toUpper

/-- Valid DNA alphabet, VALID_DNA_BASES in sequence.py. -/
def validDnaBases : List Char := ['A', 'C', 'G', 'T', 'N']

/-- Valid RNA alphabet, VALID_RNA_BASES in sequence.py. -/
def validRnaBases : List Char := ['A', 'C', 'G', 'U', 'N']

/-- Alphabet used to validate a sequence of the given kind: RNA uses the RNA
alphabet, every other kind uses the DNA alphabet (sequence.py picks
VALID_DNA_BASES whenever seq_type is not RNA). -/
def basesFor (t : SequenceType) : List Char :=
  if t = SequenceType.RNA then validRnaBases else validDnaBases

/-- Validated genomic sequence value: the bases string and its kind tag.
The optional id and description metadata carry no behaviour and are omitted. -/
structure Sequence where
  bases : List Char
  seqType : SequenceType
deriving DecidableEq

/-- Validity of all bases for the sequence kind, Sequence.is_valid. -/
def Sequence.isValid (s : Sequence) : Bool :=
  s.bases.all (fun b => (basesFor s.seqType).contains b)

/-- Constructor model of Sequence.__post_init__: uppercase the bases, fail on
an empty result, then validate each base unless the caller passed
_validated=True, failing at the first invalid position. -/
def mkSequence (bases : List Char) (t : SequenceType) (validated : Bool) :
    Except SeqError Sequence :=
  let b := bases.map pyUpper
  if b.isEmpty then .error .emptySequence
  else
    match b.findIdx? (fun c => !((basesFor t).contains c)) with
    | some i => if validated then .ok ⟨b, t⟩ else .error (.invalidBase i (b.getD i ' '))
    | none => .ok ⟨b, t⟩

/-- DNA base complement, Sequence.complement_base: A-T and C-G swap, N fixed,
any other character maps to N (the dict lookup default). -/
def complementBase (c : Char) : Char :=
  if c = 'A' then 'T'
  else if c = 'T' then 'A'
  else if c = 'C' then 'G'
  else if c = 'G' then 'C'
  else if c = 'N' then 'N'
  else 'N'

/-- Sequence.complement: DNA-only; maps every base through complementBase and
rebuilds the Sequence with validation skipped (_validated=True). -/
def Sequence.complement (s : Sequence) : Except SeqError Sequence :=
  if s.seqType ≠ SequenceType.DNA then .error .wrongSequenceKind
  else mkSequence (s.bases.map complementBase) s.seqType true

/-- Sequence.reverse: reverses the bases and rebuilds with validation skipped.
The Python method has no sequence-kind check, so it never fails on RNA. -/
def Sequence.reverse (s : Sequence) : Except SeqError Sequence :=
  mkSequence s.bases.reverse s.seqType true

/-- Sequence.reverse_complement: DNA-only; complement then reverse. -/
def Sequence.reverseComplement (s : Sequence) : Except SeqError Sequence :=
  if s.seqType ≠ SequenceType.DNA then .error .wrongSequenceKind
  else do
    let c ← s.complement
    c.reverse

/-- Sequence.transcribe: DNA-only; replaces every T by U and rebuilds as RNA
with validation skipped. -/
def Sequence.transcribe (s : Sequence) : Except SeqError Sequence :=
  if s.seqType ≠ SequenceType.DNA then .error .wrongSequenceKind
  else mkSequence (s.bases.map (fun c => if c = 'T' then 'U' else c))
    SequenceType.RNA true

/-- Error outcomes of k-mer counter operations: kmer.py raises ValueError for
a key whose length differs from k, a non-positive count, a non-positive k and
a merge between counters of different k. -/
inductive KmerError where
  | lengthMismatch
  | nonPositiveCount
  | nonPositiveK
  | kMismatch
deriving DecidableEq

/-- Single k-mer value; k is the length of the stored window, so only the
window itself is stored (KMer.__post_init__ derives k = len(sequence)). -/
structure KMer where
  sequence : List Char
deriving DecidableEq

/-- Value of k carried by a k-mer. -/
def KMer.k (x : KMer) : Nat := x.sequence.length

/-- KMer.reverse_complement: complements each symbol of the reversed window
through the same A-T, C-G, N map with default N. -/
def KMer.reverseComplement (x : KMer) : KMer :=
  ⟨x.sequence.reverse.map complementBase⟩

/-- Python string comparison s < t: strict lexicographic order on code
points, with a proper prefix strictly smaller. -/
def pyStrLt : List Char → List Char → Bool
  | _, [] => false
  | [], _ :: _ => true
  | a :: as, b :: bs => a < b || (a = b && pyStrLt as bs)

/-- KMer.canonical: the k-mer itself when its window is strictly
lexicographically below the reverse complement, else the reverse
complement. -/
def KMer.canonical (x : KMer) : KMer :=
  let rc := x.reverseComplement
  if pyStrLt x.sequence rc.sequence then x else rc

/-- K-mer counter state: the window width k, the insertion-ordered count
dictionary and the running total (KMerCounter in kmer.py). -/
structure KMerCounter where
  k : Nat
  counts : List (List Char × Int)
  total : Int
deriving DecidableEq

/-- Dictionary read self.counts.get(kmer, 0): the value at the first binding
of the key, 0 when absent. -/
def dictGet (d : List (List Char × Int)) (key : List Char) : Int :=
  match d with
  | [] => 0
  | p :: rest => if p.1 = key then p.2 else dictGet rest key

/-- Dictionary write self.counts[kmer] = v: rewrite the first binding of an
existing key in place, append a fresh key at the end (Python dicts keep
insertion order). -/
def dictSet (d : List (List Char × Int)) (key : List Char) (v : Int) :
    List (List Char × Int) :=
  match d with
  | [] => [(key, v)]
  | p :: rest => if p.1 = key then (key, v) :: rest else p :: dictSet rest key v

/-- KMerCounter.new(k): empty counter for window width k.  The k > 0
constructor check appears as a hypothesis of the theorems that need it. -/
def KMerCounter.new (k : Nat) : KMerCounter := ⟨k, [], 0⟩

/-- KMerCounter.add(kmer, count): fail on a length mismatch or non-positive
count, otherwise uppercase the key and bump its binding and the total. -/
def KMerCounter.add (c : KMerCounter) (kmer : List Char) (count : Int) :
    Except KmerError KMerCounter :=
  if kmer.length ≠ c.k then .error .lengthMismatch
  else if count ≤ 0 then .error .nonPositiveCount
  else
    let km := kmer.map pyUpper
    .ok ⟨c.k, dictSet c.counts km (dictGet c.counts km + count), c.total + count⟩

/-- KMerCounter.count_kmers(sequence): uppercase the text, slide a window of
width k over positions 0..len-k, and add every window free of N with count 1.
The Nat expression length + 1 - k matches range(len(sequence) - k + 1),
which is empty whenever k exceeds the length. -/
def KMerCounter.countKmers (c : KMerCounter) (s : List Char) :
    Except KmerError KMerCounter :=
  let sq := s.map pyUpper
  (List.range (sq.length + 1 - c.k)).foldlM
    (fun acc i =>
      let kmer := (sq.drop i).take c.k
      if kmer.contains 'N' then pure acc else acc.add kmer 1)
    c

/-- KMerCounter.count_from_sequence: counts the k-mers of a Sequence value
through count_kmers on its bases. -/
def KMerCounter.countFromSequence (c : KMerCounter) (s : Sequence) :
    Except KmerError KMerCounter :=
  c.countKmers s.bases

/-- KMerCounter.merge(other): fail when the two k differ, otherwise fold the
bindings of the other counter into this one, bumping the total by each
merged count. -/
def KMerCounter.merge (c other : KMerCounter) : Except KmerError KMerCounter :=
  if c.k ≠ other.k then .error .kMismatch
  else .ok (other.counts.foldl
    (fun acc p => ⟨acc.k, dictSet acc.counts p.1 (dictGet acc.counts p.1 + p.2),
      acc.total + p.2⟩) c)

/-- Counter invariant from the spec data model: every stored key has length
exactly k, every stored count is positive, and total equals the sum of all
stored counts. -/
def KMerCounter.Inv (c : KMerCounter) : Prop :=
  (∀ p ∈ c.counts, p.1.length = c.k ∧ 0 < p.2) ∧
    c.total = (c.counts.map Prod.snd).sum

instance (c : KMerCounter) : Decidable c.Inv := by
  unfold KMerCounter.Inv; infer_instance

/-- Traceback direction tags, AlignDirection in alignment.py. -/
inductive AlignDirection where
  | diagonal
  | up
  | left
  | stop
deriving DecidableEq

/-- Alignment kind tags, AlignmentType in alignment.py. -/
inductive AlignmentType where
  | globalAlign
  | localAlign
  | semiGlobal
deriving DecidableEq

/-- Scoring parameters (ScoringMatrix dataclass). -/
structure ScoringMatrix where
  matchScore : Int
  mismatchPenalty : Int
  gapOpenPenalty : Int
  gapExtendPenalty : Int
deriving DecidableEq

/-- Sign constraints enforced by ScoringMatrix.__post_init__. -/
def ScoringMatrix.IsValid (sc : ScoringMatrix) : Prop :=
  0 < sc.matchScore ∧ sc.mismatchPenalty ≤ 0 ∧ sc.gapOpenPenalty ≤ 0 ∧
    sc.gapExtendPenalty ≤ 0

instance (sc : ScoringMatrix) : Decidable sc.IsValid := by
  unfold ScoringMatrix.IsValid; infer_instance

/-- ScoringMatrix.default_dna preset. -/
def ScoringMatrix.defaultDna : ScoringMatrix := ⟨2, -1, -2, -1⟩

/-- ScoringMatrix.score: match score on equal bases, else the mismatch
penalty. -/
def ScoringMatrix.score (sc : ScoringMatrix) (b1 b2 : Char) : Int :=
  if b1 = b2 then sc.matchScore else sc.mismatchPenalty

/-- ScoringMatrix.gap_penalty: the linear gap model uses the open penalty. -/
def ScoringMatrix.gapPenalty (sc : ScoringMatrix) : Int := sc.gapOpenPenalty

/-- Interior cell of the Smith-Waterman fill: best starts at the zero floor
with direction STOP, then diag, up and left are tested in that order, each
overwriting only when strictly greater than the current best. -/
def swCell (diag upc leftc : Int) : Int × AlignDirection :=
  let bd : Int × AlignDirection := (0, .stop)
  let bd := if diag > bd.1 then (diag, .diagonal) else bd
  let bd := if upc > bd.1 then (upc, .up) else bd
  if leftc > bd.1 then (leftc, .left) else bd

/-- One fill row of the Smith-Waterman matrix: given row i-1 as a function
prev and the sequence-1 character c of row i, cell j+1 combines prev j plus
the character score (diagonal), prev (j+1) plus gap (up) and the cell just
computed in this row plus gap (left); column 0 stays at the zero border. -/
def swRow (sc : ScoringMatrix) (s2 : List Char) (prev : Nat → Int) (c : Char) :
    Nat → Int
  | 0 => 0
  | j + 1 =>
    (swCell (prev j + sc.score c (s2.getD j ' '))
      (prev (j + 1) + sc.gapPenalty)
      (swRow sc s2 prev c j + sc.gapPenalty)).1

/-- Smith-Waterman score matrix H, built row by row exactly as the fill loop
does: row 0 is the zero border, row i+1 is computed from row i. -/
def swH (s1 s2 : List Char) (sc : ScoringMatrix) : Nat → Nat → Int
  | 0 => fun _ => 0
  | i + 1 => swRow sc s2 (swH s1 s2 sc i) (s1.getD i ' ')

/-- Smith-Waterman traceback matrix entry: STOP on the borders, else the
direction recorded by the sequential overwrite in swCell for the three
candidates of the cell. -/
def swTB (s1 s2 : List Char) (sc : ScoringMatrix) : Nat → Nat → AlignDirection
  | 0, _ => .stop
  | _ + 1, 0 => .stop
  | i + 1, j + 1 =>
    (swCell (swH s1 s2 sc i j + sc.score (s1.getD i ' ') (s2.getD j ' '))
      (swH s1 s2 sc i (j + 1) + sc.gapPenalty)
      (swH s1 s2 sc (i + 1) j + sc.gapPenalty)).2

/-- Running-maximum update over one row: process cells j, j+1, ... for the
given count, replacing the accumulator only on a strictly greater score
(the best > max_score test of the fill loop). -/
def rowMaxFrom (g : Nat → Int) : Nat → Nat → Int → Int
  | 0, _, acc => acc
  | count + 1, j, acc => rowMaxFrom g count (j + 1) (if g j > acc then g j else acc)

/-- Running maximum over the interior cells in fill order: rows i, i+1, ...
for the given count, each row scanned at columns 1..n. -/
def matMaxFrom (f : Nat → Nat → Int) : Nat → Nat → Nat → Int → Int
  | 0, _, _, acc => acc
  | count + 1, i, n, acc => matMaxFrom f count (i + 1) n (rowMaxFrom (f i) n 1 acc)

/-- Score of the smith_waterman result: the running maximum max_score over
the fill, starting at 0 (this is the score field of the returned
Alignment). -/
def smithWatermanScore (s1 s2 : List Char) (sc : ScoringMatrix) : Int :=
  matMaxFrom (swH s1 s2 sc) s1.length 1 s2.length 0

/-- Inner loop of alignment_score_only on one row: bs is the rest of
sequence 2, prev the suffix of prev_row starting at the current column minus
one, leftv the row value just computed (curr_row at the previous column) and
mx the running maximum; returns the computed row values and the updated
maximum.  Each cell is max(0, diag, up, left) as written in the source. -/
def soFill (sc : ScoringMatrix) (c : Char) :
    List Char → List Int → Int → Int → List Int × Int
  | [], _, _, mx => ([], mx)
  | b :: bs, prev, leftv, mx =>
    let diag := prev.headI + sc.score c b
    let upc := prev.tail.headI + sc.gapPenalty
    let leftc := leftv + sc.gapPenalty
    let best := max (max (max 0 diag) upc) leftc
    let mx2 := if best > mx then best else mx
    let r := soFill sc c bs prev.tail best mx2
    (best :: r.1, r.2)

/-- Outer loop of alignment_score_only: for each remaining character of
sequence 1 build the current row from the previous one (column 0 of every
row is 0) and continue with the freshly built row as prev_row. -/
def soRows (sc : ScoringMatrix) (s2 : List Char) :
    List Char → List Int → Int → Int
  | [], _, mx => mx
  | c :: cs, prev, mx =>
    let r := soFill sc c s2 prev 0 mx
    soRows sc s2 cs (0 :: r.1) r.2

/-- alignment_score_only: two-row O(n)-memory Smith-Waterman scoring; starts
from a zero prev_row of width n+1 and a zero maximum. -/
def alignmentScoreOnly (s1 s2 : List Char) (sc : ScoringMatrix) : Int :=
  soRows sc s2 s1 (List.replicate (s2.length + 1) 0) 0

/-- Interior cell of the Needleman-Wunsch fill: best starts at the diagonal
candidate with direction DIAGONAL (no zero floor), then up and left
overwrite only when strictly greater. -/
def nwCell (diag upc leftc : Int) : Int × AlignDirection :=
  let bd : Int × AlignDirection := (diag, .diagonal)
  let bd := if upc > bd.1 then (upc, .up) else bd
  if leftc > bd.1 then (leftc, .left) else bd

/-- One fill row of the Needleman-Wunsch matrix; column 0 carries the border
value i * gap passed in as base. -/
def nwRow (sc : ScoringMatrix) (s2 : List Char) (prev : Nat → Int) (c : Char)
    (base : Int) : Nat → Int
  | 0 => base
  | j + 1 =>
    (nwCell (prev j + sc.score c (s2.getD j ' '))
      (prev (j + 1) + sc.gapPenalty)
      (nwRow sc s2 prev c base j + sc.gapPenalty)).1

/-- Needleman-Wunsch score matrix H: row 0 is the gap border j * gap, row
i+1 is computed from row i with border value (i+1) * gap in column 0. -/
def nwH (s1 s2 : List Char) (sc : ScoringMatrix) : Nat → Nat → Int
  | 0 => fun j => (j : Int) * sc.gapPenalty
  | i + 1 => nwRow sc s2 (nwH s1 s2 sc i) (s1.getD i ' ')
      (((i : Int) + 1) * sc.gapPenalty)

/-- Needleman-Wunsch traceback matrix entry: STOP at the origin, UP down
column 0, LEFT along row 0, else the direction recorded by nwCell. -/
def nwTB (s1 s2 : List Char) (sc : ScoringMatrix) : Nat → Nat → AlignDirection
  | 0, 0 => .stop
  | _ + 1, 0 => .up
  | 0, _ + 1 => .left
  | i + 1, j + 1 =>
    (nwCell (nwH s1 s2 sc i j + sc.score (s1.getD i ' ') (s2.getD j ' '))
      (nwH s1 s2 sc i (j + 1) + sc.gapPenalty)
      (nwH s1 s2 sc (i + 1) j + sc.gapPenalty)).2

/-- Global traceback walk of _traceback_global, with the loop measured by a
fuel argument that strictly decreases at every step (i+j drops by one or two
per iteration, so fuel m+n suffices).  At the borders the walk emits the
forced gap moves; in the interior it follows the traceback matrix, and an
interior STOP breaks out of the loop. -/
def tbGlobalAux (s1 s2 : List Char) (tb : Nat → Nat → AlignDirection) :
    Nat → Nat → Nat → List Char × List Char
  | _, 0, 0 => ([], [])
  | 0, _, _ => ([], [])
  | fuel + 1, 0, j + 1 =>
    let r := tbGlobalAux s1 s2 tb fuel 0 j
    (r.1 ++ ['-'], r.2 ++ [s2.getD j ' '])
  | fuel + 1, i + 1, 0 =>
    let r := tbGlobalAux s1 s2 tb fuel i 0
    (r.1 ++ [s1.getD i ' '], r.2 ++ ['-'])
  | fuel + 1, i + 1, j + 1 =>
    match tb (i + 1) (j + 1) with
    | .diagonal =>
      let r := tbGlobalAux s1 s2 tb fuel i j
      (r.1 ++ [s1.getD i ' '], r.2 ++ [s2.getD j ' '])
    | .up =>
      let r := tbGlobalAux s1 s2 tb fuel i (j + 1)
      (r.1 ++ [s1.getD i ' '], r.2 ++ ['-'])
    | .left =>
      let r := tbGlobalAux s1 s2 tb fuel (i + 1) j
      (r.1 ++ ['-'], r.2 ++ [s2.getD j ' '])
    | .stop => ([], [])

/-- Traceback of the global alignment from cell (m, n) back to the origin. -/
def tracebackGlobal (s1 s2 : List Char) (tb : Nat → Nat → AlignDirection)
    (m n : Nat) : List Char × List Char :=
  tbGlobalAux s1 s2 tb (m + n) m n

/-- Alignment result record; the aligned rows, the score and the kind tag.
The start and end offsets and the derived float identity field carry no
behaviour used by the claims and are omitted. -/
structure Alignment where
  alignedSeq1 : List Char
  alignedSeq2 : List Char
  score : Int
  alignmentType : AlignmentType
deriving DecidableEq

/-- Alignment.gaps_seq1: gap symbols in the first aligned row. -/
def Alignment.gapsSeq1 (a : Alignment) : Nat := a.alignedSeq1.count '-'

/-- Alignment.gaps_seq2: gap symbols in the second aligned row. -/
def Alignment.gapsSeq2 (a : Alignment) : Nat := a.alignedSeq2.count '-'

/-- Alignment.total_gaps: gap symbols across both aligned rows. -/
def Alignment.totalGaps (a : Alignment) : Nat := a.gapsSeq1 + a.gapsSeq2

/-- needleman_wunsch: fill the global matrices, trace back from (m, n) and
return the aligned rows with score H[m][n]. -/
def needlemanWunsch (s1 s2 : List Char) (sc : ScoringMatrix) : Alignment :=
  let r := tracebackGlobal s1 s2 (nwTB s1 s2 sc) s1.length s2.length
  ⟨r.1, r.2, nwH s1 s2 sc s1.length s2.length, .globalAlign⟩

/-- Python enumerate(xs) starting at index i. -/
def enumFrom {α : Type} (i : Nat) : List α → List (Nat × α)
  | [] => []
  | x :: xs => (i, x) :: enumFrom (i + 1) xs

/-- align_against_multiple: the query aligned against every target in order,
index-tagged by enumerate.  Each result is carried by its alignment score,
the only field the best-alignment selection reads. -/
def alignAgainstMultiple (q : List Char) (ts : List (List Char))
    (sc : ScoringMatrix) : List (Nat × Int) :=
  (enumFrom 0 ts).map (fun p => (p.1, smithWatermanScore q p.2 sc))

/-- Python max(xs, key=score) over a non-empty list: the running best is
replaced only by a strictly greater score, so the first maximal element
wins. -/
def pymaxRec : Nat × Int → List (Nat × Int) → Nat × Int
  | best, [] => best
  | best, y :: ys => pymaxRec (if y.2 > best.2 then y else best) ys

/-- find_best_alignment: the first maximum-score (index, score) pair of the
multi-target results, none for an empty result list. -/
def findBestAlignment (q : List Char) (ts : List (List Char))
    (sc : ScoringMatrix) : Option (Nat × Int) :=
  match alignAgainstMultiple q ts sc with
  | [] => none
  | x :: xs => some (pymaxRec x xs)

/-! Helper lemmas about the sequence model. -/

theorem isValid_mem {s : Sequence} (h : s.isValid = true) :
    ∀ b ∈ s.bases, b ∈ basesFor s.seqType := by
  intro b hb
  have hc := List.all_eq_true.mp h b hb
  simpa using hc

theorem mem_basesFor_pyUpper {t : SequenceType} {c : Char}
    (h : c ∈ basesFor t) : pyUpper c = c := by
  unfold basesFor at h
  split at h <;> simp [validRnaBases, validDnaBases] at h <;>
    rcases h with rfl | rfl | rfl | rfl | rfl <;> decide

theorem complementBase_complementBase {c : Char} (h : c ∈ validDnaBases) :
    complementBase (complementBase c) = c := by
  simp [validDnaBases] at h
  rcases h with rfl | rfl | rfl | rfl | rfl <;> decide

theorem pyUpper_complementBase (c : Char) :
    pyUpper (complementBase c) = complementBase c := by
  unfold complementBase
  split_ifs <;> decide

theorem map_eq_self_of_forall {l : List Char} {f : Char → Char}
    (h : ∀ x ∈ l, f x = x) : l.map f = l := by
  conv_rhs => rw [← List.map_id l]
  exact List.map_congr_left h

theorem mkSequence_validated (b : List Char) (t : SequenceType) :
    mkSequence b t true =
      if b.map pyUpper = [] then .error .emptySequence
      else .ok ⟨b.map pyUpper, t⟩ := by
  unfold mkSequence
  cases h : (b.map pyUpper).findIdx? (fun c => !((basesFor t).contains c)) <;>
    (simp only [h, List.isEmpty_iff]; try rfl)

theorem mkSequence_validated_ok {b : List Char} {t : SequenceType}
    (hne : b ≠ []) (hup : b.map pyUpper = b) :
    mkSequence b t true = .ok ⟨b, t⟩ := by
  rw [mkSequence_validated, hup, if_neg hne]

theorem pyUpper_map_of_valid {l : List Char} {t : SequenceType}
    (h : ∀ b ∈ l, b ∈ basesFor t) : l.map pyUpper = l :=
  map_eq_self_of_forall (fun c hc => mem_basesFor_pyUpper (h c hc))

/-! Claims C3 and C8: sequence transformations. -/

/-- Claim C3 counterexample: the claim says reverse is DNA-only and fails
with a wrong-sequence-kind error on an RNA input, but Sequence.reverse has
no kind check: on the valid RNA sequence AU it succeeds and returns the
reversed RNA sequence UA. -/
theorem claim_c3_counterexample :
    Sequence.reverse ⟨['A', 'U'], SequenceType.RNA⟩ =
      .ok ⟨['U', 'A'], SequenceType.RNA⟩ := by
  rfl

/-- Claim C3 (amended): complement, reverse_complement and transcribe are
DNA-only and fail with the wrong-sequence-kind error on an RNA sequence,
while reverse succeeds on a valid non-empty sequence of any kind; on a valid
non-empty DNA sequence all four transformations succeed and return a new
Sequence. -/
theorem claim_c3_amended_dna_only :
    (∀ s : Sequence, s.seqType = SequenceType.RNA →
      s.complement = .error .wrongSequenceKind ∧
      s.reverseComplement = .error .wrongSequenceKind ∧
      s.transcribe = .error .wrongSequenceKind) ∧
    (∀ s : Sequence, s.isValid = true → s.bases ≠ [] →
      ∃ t : Sequence, s.reverse = .ok t) ∧
    (∀ s : Sequence, s.seqType = SequenceType.DNA → s.isValid = true →
      s.bases ≠ [] →
      (∃ t : Sequence, s.complement = .ok t) ∧
      (∃ t : Sequence, s.reverse = .ok t) ∧
      (∃ t : Sequence, s.reverseComplement = .ok t) ∧
      (∃ t : Sequence, s.transcribe = .ok t)) := by
  have hrev : ∀ s : Sequence, s.isValid = true → s.bases ≠ [] →
      s.reverse = .ok ⟨s.bases.reverse, s.seqType⟩ := by
    intro s hv hne
    have hup : s.bases.reverse.map pyUpper = s.bases.reverse :=
      pyUpper_map_of_valid (fun b hb =>
        isValid_mem hv b (List.mem_reverse.mp hb))
    unfold Sequence.reverse
    rw [mkSequence_validated_ok (by simpa using hne) hup]
  have hcompl : ∀ s : Sequence, s.seqType = SequenceType.DNA →
      s.bases ≠ [] →
      s.complement = .ok ⟨s.bases.map complementBase, s.seqType⟩ := by
    intro s ht hne
    have hup : (s.bases.map complementBase).map pyUpper =
        s.bases.map complementBase := by
      rw [List.map_map]
      exact List.map_congr_left (fun c _ => pyUpper_complementBase c)
    unfold Sequence.complement
    rw [if_neg (by simp [ht])]
    exact mkSequence_validated_ok (by simpa using hne) hup
  refine ⟨?_, fun s hv hne => ⟨_, hrev s hv hne⟩, ?_⟩
  · intro s ht
    refine ⟨?_, ?_, ?_⟩ <;>
      simp [Sequence.complement, Sequence.reverseComplement,
        Sequence.transcribe, ht]
  · intro s ht hv hne
    refine ⟨⟨_, hcompl s ht hne⟩, ⟨_, hrev s hv hne⟩, ?_, ?_⟩
    · have hok := hcompl s ht hne
      have hvc : (⟨s.bases.map complementBase, s.seqType⟩ : Sequence).isValid
          = true := by
        apply List.all_eq_true.mpr
        intro b hb
        rcases List.mem_map.mp hb with ⟨c, _, rfl⟩
        have hcb : complementBase c ∈ validDnaBases := by
          unfold complementBase
          split_ifs <;> decide
        rw [ht]
        simpa [basesFor] using hcb
      have hrc := hrev ⟨s.bases.map complementBase, s.seqType⟩ hvc
        (by simpa using hne)
      refine ⟨⟨(s.bases.map complementBase).reverse, s.seqType⟩, ?_⟩
      unfold Sequence.reverseComplement
      rw [if_neg (by simp [ht]), hok]
      simpa using hrc
    · have hup : (s.bases.map (fun c => if c = 'T' then 'U' else c)).map
          pyUpper = s.bases.map (fun c => if c = 'T' then 'U' else c) := by
        rw [List.map_map]
        apply List.map_congr_left
        intro c hc
        have hm := isValid_mem hv c hc
        rw [ht] at hm
        simp only [basesFor, validDnaBases] at hm
        simp at hm
        rcases hm with rfl | rfl | rfl | rfl | rfl <;> decide
      refine ⟨⟨s.bases.map (fun c => if c = 'T' then 'U' else c),
        SequenceType.RNA⟩, ?_⟩
      unfold Sequence.transcribe
      rw [if_neg (by simp [ht])]
      exact mkSequence_validated_ok (by simpa using hne) hup

/-- Claim C3 witness: the amended theorem applied to the RNA sequence AU and
the DNA sequence ACGT. -/
theorem claim_c3_witness :
    (Sequence.complement ⟨['A', 'U'], SequenceType.RNA⟩ =
      .error .wrongSequenceKind) ∧
    (∃ t : Sequence, Sequence.reverse ⟨['A', 'U'], SequenceType.RNA⟩ = .ok t) ∧
    (∃ t : Sequence,
      Sequence.complement ⟨['A', 'C', 'G', 'T'], SequenceType.DNA⟩ = .ok t) :=
  ⟨(claim_c3_amended_dna_only.1 ⟨['A', 'U'], SequenceType.RNA⟩ rfl).1,
    claim_c3_amended_dna_only.2.1 ⟨['A', 'U'], SequenceType.RNA⟩ (by decide)
      (by decide),
    (claim_c3_amended_dna_only.2.2 ⟨['A', 'C', 'G', 'T'], SequenceType.DNA⟩
      rfl (by decide) (by decide)).1⟩

/-- Claim C8: on a valid non-empty DNA sequence, complement applied twice
returns a sequence with the original bases; on a valid non-empty sequence of
either kind, reverse applied twice returns a sequence with the original
bases. -/
theorem claim_c8_involutions :
    (∀ s : Sequence, s.seqType = SequenceType.DNA → s.isValid = true →
      s.bases ≠ [] →
      ∃ t u : Sequence, s.complement = .ok t ∧ t.complement = .ok u ∧
        u.bases = s.bases) ∧
    (∀ s : Sequence, s.isValid = true → s.bases ≠ [] →
      ∃ t u : Sequence, s.reverse = .ok t ∧ t.reverse = .ok u ∧
        u.bases = s.bases) := by
  have hcompl : ∀ s : Sequence, s.seqType = SequenceType.DNA →
      s.bases ≠ [] →
      s.complement = .ok ⟨s.bases.map complementBase, s.seqType⟩ := by
    intro s ht hne
    have hup : (s.bases.map complementBase).map pyUpper =
        s.bases.map complementBase := by
      rw [List.map_map]
      exact List.map_congr_left (fun c _ => pyUpper_complementBase c)
    unfold Sequence.complement
    rw [if_neg (by simp [ht])]
    exact mkSequence_validated_ok (by simpa using hne) hup
  constructor
  · intro s ht hv hne
    have h1 := hcompl s ht hne
    have h2 := hcompl ⟨s.bases.map complementBase, s.seqType⟩ ht
      (by simpa using hne)
    refine ⟨_, _, h1, h2, ?_⟩
    simp only [List.map_map]
    apply map_eq_self_of_forall
    intro c hc
    have hm := isValid_mem hv c hc
    rw [ht] at hm
    exact complementBase_complementBase (by simpa [basesFor] using hm)
  · intro s hv hne
    have hup : s.bases.reverse.map pyUpper = s.bases.reverse :=
      pyUpper_map_of_valid (fun b hb =>
        isValid_mem hv b (List.mem_reverse.mp hb))
    have h1 : s.reverse = .ok ⟨s.bases.reverse, s.seqType⟩ := by
      unfold Sequence.reverse
      exact mkSequence_validated_ok (by simpa using hne) hup
    have h2 : Sequence.reverse ⟨s.bases.reverse, s.seqType⟩ =
        .ok ⟨s.bases.reverse.reverse, s.seqType⟩ := by
      unfold Sequence.reverse
      apply mkSequence_validated_ok (by simpa using hne)
      apply pyUpper_map_of_valid
      intro b hb
      exact isValid_mem hv b (by simpa using List.mem_reverse.mp hb)
    exact ⟨_, _, h1, h2, by simp⟩

/-- Claim C8 witness: both involutions applied to the DNA sequence ACGT. -/
theorem claim_c8_witness :
    (∃ t u : Sequence,
      Sequence.complement ⟨['A', 'C', 'G', 'T'], SequenceType.DNA⟩ = .ok t ∧
      t.complement = .ok u ∧ u.bases = ['A', 'C', 'G', 'T']) ∧
    (∃ t u : Sequence,
      Sequence.reverse ⟨['A', 'C', 'G', 'T'], SequenceType.DNA⟩ = .ok t ∧
      t.reverse = .ok u ∧ u.bases = ['A', 'C', 'G', 'T']) :=
  ⟨claim_c8_involutions.1 ⟨['A', 'C', 'G', 'T'], SequenceType.DNA⟩ rfl
      (by decide) (by decide),
    claim_c8_involutions.2 ⟨['A', 'C', 'G', 'T'], SequenceType.DNA⟩
      (by decide) (by decide)⟩

/-! Helper lemmas for the canonical k-mer claim. -/

theorem pyStrLt_asymm : ∀ a b : List Char,
    pyStrLt a b = true → pyStrLt b a = false := by
  intro a
  induction a with
  | nil =>
    intro b _
    cases b <;> rfl
  | cons x xs ih =>
    intro b h
    cases b with
    | nil => simp [pyStrLt] at h
    | cons y ys =>
      simp only [pyStrLt, Bool.or_eq_true, Bool.and_eq_true,
        decide_eq_true_eq] at h
      rcases h with h | ⟨rfl, h2⟩
      · simp only [pyStrLt, Bool.or_eq_false_iff, Bool.and_eq_false_iff,
          decide_eq_false_iff_not]
        exact ⟨asymm h, Or.inl (ne_of_gt h)⟩
      · simp [pyStrLt, lt_irrefl, ih ys h2]

theorem pyStrLt_conn : ∀ a b : List Char,
    pyStrLt a b = false → pyStrLt b a = false → a = b := by
  intro a
  induction a with
  | nil =>
    intro b h _
    cases b with
    | nil => rfl
    | cons y ys => simp [pyStrLt] at h
  | cons x xs ih =>
    intro b h h2
    cases b with
    | nil => simp [pyStrLt] at h2
    | cons y ys =>
      simp only [pyStrLt, Bool.or_eq_false_iff, Bool.and_eq_false_iff,
        decide_eq_false_iff_not] at h h2
      have hxy : x = y := le_antisymm (not_lt.mp h2.1) (not_lt.mp h.1)
      subst hxy
      rcases h.2 with h' | h'
      · exact absurd rfl h'
      · rcases h2.2 with h'' | h''
        · exact absurd rfl h''
        · rw [ih ys h' h'']

theorem canonical_eq (x : KMer) :
    x.canonical =
      if pyStrLt x.sequence x.reverseComplement.sequence = true then x
      else x.reverseComplement := rfl

theorem reverseComplement_involutive {x : KMer}
    (h : ∀ c ∈ x.sequence, c ∈ validDnaBases) :
    x.reverseComplement.reverseComplement = x := by
  unfold KMer.reverseComplement
  congr 1
  simp only [List.map_reverse, List.reverse_reverse, List.map_map]
  exact map_eq_self_of_forall (fun c hc => complementBase_complementBase (h c hc))

/-! Claim C6: canonical k-mers. -/

/-- Claim C6 counterexample: for the k-mer XA, whose window is outside the
DNA alphabet, reverse complementation is not an involution (XA maps to TN,
TN maps to NA), so the k-mer and its reverse complement land in different
canonical buckets, refuting the universally quantified consequence of the
claim. -/
theorem claim_c6_counterexample :
    KMer.canonical (KMer.reverseComplement ⟨['X', 'A']⟩) ≠
      KMer.canonical ⟨['X', 'A']⟩ := by
  decide

/-- Claim C6 (amended): canonical returns the k-mer itself when its window
is lexicographically at most the reverse complement (the equal case returns
the reverse complement object, which is the same k-mer value), and the
reverse complement otherwise; for every k-mer over the valid DNA alphabet
A, C, G, T, N — in particular every k-mer extracted by the counting
routines — the k-mer and its reverse complement map to the same canonical
k-mer. -/
theorem claim_c6_amended_canonical :
    (∀ x : KMer,
      ((pyStrLt x.sequence x.reverseComplement.sequence = true ∨
          x.sequence = x.reverseComplement.sequence) → x.canonical = x) ∧
      (pyStrLt x.reverseComplement.sequence x.sequence = true →
        x.canonical = x.reverseComplement)) ∧
    (∀ x : KMer, (∀ c ∈ x.sequence, c ∈ validDnaBases) →
      x.reverseComplement.canonical = x.canonical) := by
  constructor
  · intro x
    constructor
    · intro h
      rcases h with h | h
      · simp [KMer.canonical, h]
      · simp only [KMer.canonical]
        split
        · rfl
        · exact congrArg KMer.mk h.symm
    · intro h
      have hlt : pyStrLt x.sequence x.reverseComplement.sequence = false :=
        pyStrLt_asymm _ _ h
      simp [KMer.canonical, hlt]
  · intro x hval
    have hinv : x.reverseComplement.reverseComplement = x :=
      reverseComplement_involutive hval
    rw [canonical_eq, canonical_eq, hinv]
    cases h1 : pyStrLt x.sequence x.reverseComplement.sequence with
    | false =>
      cases h2 : pyStrLt x.reverseComplement.sequence x.sequence with
      | false =>
        have heq := pyStrLt_conn _ _ h2 h1
        simp only [h1, h2, Bool.false_eq_true, if_false]
        exact (congrArg KMer.mk heq).symm
      | true => simp [h1, h2]
    | true =>
      rw [pyStrLt_asymm _ _ h1]
      simp [h1]

/-- Claim C6 witness: the amended theorem applied to the k-mer ATCG (kept as
is, since ATCG is below its reverse complement CGAT) and to CGAT (mapped to
the same canonical bucket as its reverse complement ATCG). -/
theorem claim_c6_witness :
    ((pyStrLt (KMer.sequence ⟨['A', 'T', 'C', 'G']⟩)
        (KMer.reverseComplement ⟨['A', 'T', 'C', 'G']⟩).sequence = true ∨
      KMer.sequence ⟨['A', 'T', 'C', 'G']⟩ =
        (KMer.reverseComplement ⟨['A', 'T', 'C', 'G']⟩).sequence) →
      KMer.canonical ⟨['A', 'T', 'C', 'G']⟩ = ⟨['A', 'T', 'C', 'G']⟩) ∧
    (KMer.canonical (KMer.reverseComplement ⟨['C', 'G', 'A', 'T']⟩) =
      KMer.canonical ⟨['C', 'G', 'A', 'T']⟩) :=
  ⟨(claim_c6_amended_canonical.1 ⟨['A', 'T', 'C', 'G']⟩).1,
    claim_c6_amended_canonical.2 ⟨['C', 'G', 'A', 'T']⟩ (by decide)⟩

/-! Helper lemmas for the k-mer counter claims. -/

theorem dictSet_bump_sum : ∀ (d : List (List Char × Int)) (key : List Char)
    (cnt : Int),
    ((dictSet d key (dictGet d key + cnt)).map Prod.snd).sum =
      (d.map Prod.snd).sum + cnt := by
  intro d key cnt
  induction d with
  | nil => simp [dictSet, dictGet]
  | cons p rest ih =>
    by_cases h : p.1 = key
    · simp only [dictSet, dictGet, h, if_pos, List.map_cons, List.sum_cons]
      ring
    · simp only [dictSet, dictGet, h, if_neg, ite_false, List.map_cons,
        List.sum_cons, ih]
      ring

theorem mem_dictSet : ∀ {d : List (List Char × Int)} {key : List Char}
    {v : Int} {q : List Char × Int},
    q ∈ dictSet d key v → q = (key, v) ∨ q ∈ d := by
  intro d key v
  induction d with
  | nil =>
    intro q hq
    simp [dictSet] at hq
    exact Or.inl hq
  | cons p rest ih =>
    intro q hq
    by_cases h : p.1 = key
    · simp only [dictSet, h, if_pos] at hq
      rcases List.mem_cons.mp hq with h1 | h1
      · exact Or.inl h1
      · exact Or.inr (List.mem_cons_of_mem _ h1)
    · simp only [dictSet, h, ite_false] at hq
      rcases List.mem_cons.mp hq with h1 | h1
      · exact Or.inr (h1 ▸ List.mem_cons_self _ _)
      · rcases ih h1 with h2 | h2
        · exact Or.inl h2
        · exact Or.inr (List.mem_cons_of_mem _ h2)

theorem dictGet_nonneg : ∀ (d : List (List Char × Int)) (key : List Char),
    (∀ p ∈ d, 0 < p.2) → 0 ≤ dictGet d key := by
  intro d key
  induction d with
  | nil =>
    intro _
    simp [dictGet]
  | cons p rest ih =>
    intro h
    rw [dictGet]
    split_ifs with hk
    · exact le_of_lt (h p (List.mem_cons_self _ _))
    · exact ih (fun q hq => h q (List.mem_cons_of_mem _ hq))

theorem bump_inv {c : KMerCounter} {key : List Char} {cnt : Int}
    (h : c.Inv) (hLen : key.length = c.k) (hPos : 0 < cnt) :
    KMerCounter.Inv
      ⟨c.k, dictSet c.counts key (dictGet c.counts key + cnt),
        c.total + cnt⟩ := by
  obtain ⟨hKeys, hTot⟩ := h
  constructor
  · intro p hp
    rcases mem_dictSet hp with rfl | hp2
    · refine ⟨hLen, ?_⟩
      have hge := dictGet_nonneg c.counts key (fun q hq => (hKeys q hq).2)
      omega
    · exact hKeys p hp2
  · simpa [dictSet_bump_sum] using congrArg (fun z => z + cnt) hTot

theorem add_ok {c : KMerCounter} {kmer : List Char} {cnt : Int}
    {c' : KMerCounter} (hok : c.add kmer cnt = .ok c') :
    kmer.length = c.k ∧ 0 < cnt ∧
      c' = ⟨c.k,
        dictSet c.counts (kmer.map pyUpper)
          (dictGet c.counts (kmer.map pyUpper) + cnt),
        c.total + cnt⟩ := by
  unfold KMerCounter.add at hok
  by_cases h1 : kmer.length ≠ c.k
  · rw [if_pos h1] at hok
    exact Except.noConfusion hok
  · rw [if_neg h1] at hok
    by_cases h2 : cnt ≤ 0
    · rw [if_pos h2] at hok
      exact Except.noConfusion hok
    · rw [if_neg h2] at hok
      refine ⟨not_ne_iff.mp h1, lt_of_not_le h2, ?_⟩
      simp only [Except.ok.injEq] at hok
      exact hok.symm

theorem add_inv {c : KMerCounter} {kmer : List Char} {cnt : Int}
    {c' : KMerCounter} (hInv : c.Inv) (hok : c.add kmer cnt = .ok c') :
    c'.Inv ∧ c'.k = c.k ∧ c'.total = c.total + cnt := by
  obtain ⟨hL, hP, rfl⟩ := add_ok hok
  exact ⟨bump_inv hInv (by simpa using hL) hP, rfl, rfl⟩

theorem countFold_inv (sq : List Char) (k0 : Nat) :
    ∀ (idxs : List Nat) (c c' : KMerCounter), c.Inv →
    idxs.foldlM (fun acc i =>
      let kmer := (sq.drop i).take k0
      if kmer.contains 'N' then pure acc else acc.add kmer 1) c = .ok c' →
    c'.Inv ∧ c'.k = c.k := by
  intro idxs
  induction idxs with
  | nil =>
    intro c c' hInv hok
    cases hok
    exact ⟨hInv, rfl⟩
  | cons i rest ih =>
    intro c c' hInv hok
    rw [List.foldlM_cons] at hok
    by_cases hN : ((sq.drop i).take k0).contains 'N'
    · simp only [hN, if_pos] at hok
      exact ih c c' hInv hok
    · simp only [hN, ite_false] at hok
      cases hadd : c.add ((sq.drop i).take k0) 1 with
      | error e => rw [hadd] at hok; exact Except.noConfusion hok
      | ok a =>
        rw [hadd] at hok
        have ha := add_inv hInv hadd
        have := ih a c' ha.1 hok
        exact ⟨this.1, this.2.trans ha.2.1⟩

theorem countFold_total (sq : List Char) (k0 : Nat) :
    ∀ (idxs : List Nat) (c : KMerCounter), c.Inv → c.k = k0 →
    (∀ i ∈ idxs, i + k0 ≤ sq.length) →
    ∃ c', idxs.foldlM (fun acc i =>
        let kmer := (sq.drop i).take k0
        if kmer.contains 'N' then pure acc else acc.add kmer 1) c = .ok c' ∧
      c'.Inv ∧ c'.k = k0 ∧
      c'.total = c.total +
        ((idxs.filter
          (fun i => !(((sq.drop i).take k0).contains 'N'))).length : Int) := by
  intro idxs
  induction idxs with
  | nil =>
    intro c hInv hk _
    exact ⟨c, rfl, hInv, hk, by simp⟩
  | cons i rest ih =>
    intro c hInv hk hb
    have hlen : ((sq.drop i).take k0).length = k0 := by
      have := hb i (List.mem_cons_self _ _)
      simp only [List.length_take, List.length_drop]
      omega
    rw [List.foldlM_cons]
    by_cases hN : ((sq.drop i).take k0).contains 'N'
    · obtain ⟨c', hfold, hInv', hk', htot⟩ :=
        ih c hInv hk (fun j hj => hb j (List.mem_cons_of_mem _ hj))
      refine ⟨c', ?_, hInv', hk', ?_⟩
      · simpa only [hN, if_pos] using hfold
      · rw [htot, List.filter_cons_of_neg (by simp only [hN]; decide)]
    · have hadd : c.add ((sq.drop i).take k0) 1 =
          .ok ⟨c.k,
            dictSet c.counts (((sq.drop i).take k0).map pyUpper)
              (dictGet c.counts (((sq.drop i).take k0).map pyUpper) + 1),
            c.total + 1⟩ := by
        unfold KMerCounter.add
        rw [if_neg (by omega), if_neg (by omega)]
      have hInvA := (add_inv hInv hadd).1
      have hkA : c.k = k0 := hk
      obtain ⟨c', hfold, hInv', hk', htot⟩ :=
        ih _ hInvA hkA (fun j hj => hb j (List.mem_cons_of_mem _ hj))
      refine ⟨c', ?_, hInv', hk', ?_⟩
      · simp only [hN, ite_false]
        rw [hadd]
        exact hfold
      · rw [htot, List.filter_cons_of_pos (by simpa using hN)]
        simp only [List.length_cons]
        push_cast
        ring

theorem mergeFold_inv (kk : Nat) :
    ∀ (entries : List (List Char × Int)) (acc : KMerCounter), acc.Inv →
    acc.k = kk → (∀ p ∈ entries, p.1.length = kk ∧ 0 < p.2) →
    (entries.foldl (fun acc p =>
      ⟨acc.k, dictSet acc.counts p.1 (dictGet acc.counts p.1 + p.2),
        acc.total + p.2⟩) acc).Inv ∧
    (entries.foldl (fun acc p =>
      ⟨acc.k, dictSet acc.counts p.1 (dictGet acc.counts p.1 + p.2),
        acc.total + p.2⟩) acc).k = kk := by
  intro entries
  induction entries with
  | nil =>
    intro acc hInv hk _
    exact ⟨hInv, hk⟩
  | cons p rest ih =>
    intro acc hInv hk hs
    rw [List.foldl_cons]
    have hp := hs p (List.mem_cons_self _ _)
    exact ih _ (bump_inv hInv (hk ▸ hp.1) hp.2) hk
      (fun q hq => hs q (List.mem_cons_of_mem _ hq))

/-! Claims C5 and C7: k-mer counting. -/

/-- Claim C5: counting the k-mers of a valid sequence with window width
k at most the length into a fresh counter succeeds, and the resulting total
is the number of length-k windows free of the ambiguity symbol N; when the
sequence has no N at all the total is length - k + 1. -/
theorem claim_c5_kmer_total (s : Sequence) (k : Nat) (_hk : 0 < k)
    (hkL : k ≤ s.bases.length) (hv : s.isValid = true) :
    ∃ c' : KMerCounter, (KMerCounter.new k).countFromSequence s = .ok c' ∧
      c'.total = (((List.range (s.bases.length + 1 - k)).filter
        (fun i => !(((s.bases.drop i).take k).contains 'N'))).length : Int) ∧
      ('N' ∉ s.bases →
        c'.total = ((s.bases.length - k + 1 : Nat) : Int)) := by
  have hup : s.bases.map pyUpper = s.bases :=
    pyUpper_map_of_valid (isValid_mem hv)
  have hInv0 : (KMerCounter.new k).Inv :=
    ⟨fun p hp => absurd hp (List.not_mem_nil p), by simp [KMerCounter.new]⟩
  obtain ⟨c', hfold, hInv, hkk, htot⟩ :=
    countFold_total s.bases k (List.range (s.bases.length + 1 - k))
      (KMerCounter.new k) hInv0 rfl
      (fun i hi => by have := List.mem_range.mp hi; omega)
  refine ⟨c', ?_, ?_, ?_⟩
  · unfold KMerCounter.countFromSequence KMerCounter.countKmers
    simp only [hup]
    exact hfold
  · simpa [KMerCounter.new] using htot
  · intro hN
    have hall : (List.range (s.bases.length + 1 - k)).filter
        (fun i => !(((s.bases.drop i).take k).contains 'N')) =
        List.range (s.bases.length + 1 - k) := by
      apply List.filter_eq_self.mpr
      intro i _
      have : 'N' ∉ (s.bases.drop i).take k := fun hmem =>
        hN ((List.drop_sublist i s.bases).subset
          ((List.take_sublist k _).subset hmem))
      simpa using this
    rw [htot, hall]
    simp only [KMerCounter.new, List.length_range]
    have : s.bases.length + 1 - k = s.bases.length - k + 1 := by omega
    rw [this]
    simp

/-- Claim C5 witness: the counting theorem applied to the DNA sequence ATCG
with window width 2, giving total 3 = 4 - 2 + 1. -/
theorem claim_c5_witness :
    ∃ c' : KMerCounter,
      (KMerCounter.new 2).countFromSequence
        ⟨['A', 'T', 'C', 'G'], SequenceType.DNA⟩ = .ok c' ∧
      c'.total = (((List.range (4 + 1 - 2)).filter
        (fun i => !(((List.drop i ['A', 'T', 'C', 'G']).take 2).contains
          'N'))).length : Int) ∧
      ('N' ∉ (['A', 'T', 'C', 'G'] : List Char) →
        c'.total = ((4 - 2 + 1 : Nat) : Int)) :=
  claim_c5_kmer_total ⟨['A', 'T', 'C', 'G'], SequenceType.DNA⟩ 2
    (by decide) (by decide) (by decide)

/-- Claim C7: the counter invariant — all keys of length k, all counts
positive, total equal to the sum of the counts — holds for a fresh counter
and is preserved by every successful add, by count_kmers and by the merge of
two counters (the k equality is enforced by merge itself). -/
theorem claim_c7_counter_invariant :
    (∀ k : Nat, (KMerCounter.new k).Inv) ∧
    (∀ (c c' : KMerCounter) (kmer : List Char) (cnt : Int), c.Inv →
      c.add kmer cnt = .ok c' → c'.Inv) ∧
    (∀ (c c' : KMerCounter) (s : List Char), c.Inv →
      c.countKmers s = .ok c' → c'.Inv) ∧
    (∀ c o c' : KMerCounter, c.Inv → o.Inv → c.merge o = .ok c' →
      c'.Inv) := by
  refine ⟨?_, ?_, ?_, ?_⟩
  · intro k
    exact ⟨fun p hp => absurd hp (List.not_mem_nil p), by simp [KMerCounter.new]⟩
  · intro c c' kmer cnt h hok
    exact (add_inv h hok).1
  · intro c c' s h hok
    unfold KMerCounter.countKmers at hok
    exact (countFold_inv (s.map pyUpper) c.k _ c c' h hok).1
  · intro c o c' hc ho hok
    unfold KMerCounter.merge at hok
    by_cases hkk : c.k ≠ o.k
    · rw [if_pos hkk] at hok
      exact Except.noConfusion hok
    · rw [if_neg hkk] at hok
      simp only [Except.ok.injEq] at hok
      subst hok
      have hkeq : c.k = o.k := not_ne_iff.mp hkk
      exact (mergeFold_inv c.k o.counts c hc rfl
        (fun p hp => ⟨(ho.1 p hp).1.trans hkeq.symm, (ho.1 p hp).2⟩)).1

/-- Claim C7 witness: the invariant theorem applied to a fresh counter for
k = 2, a concrete add, a concrete count over ATA and a concrete merge. -/
theorem claim_c7_witness :
    (KMerCounter.new 2).Inv ∧
    KMerCounter.Inv ⟨2, [(['A', 'T'], 1)], 1⟩ ∧
    KMerCounter.Inv ⟨2, [(['A', 'T'], 1), (['T', 'A'], 1)], 2⟩ ∧
    KMerCounter.Inv ⟨2, [(['A', 'T'], 2), (['T', 'A'], 1)], 3⟩ :=
  ⟨claim_c7_counter_invariant.1 2,
    claim_c7_counter_invariant.2.1 (KMerCounter.new 2) _ ['A', 'T'] 1
      (by decide) rfl,
    claim_c7_counter_invariant.2.2.1 (KMerCounter.new 2) _ ['A', 'T', 'A']
      (by decide) rfl,
    claim_c7_counter_invariant.2.2.2 ⟨2, [(['A', 'T'], 1)], 1⟩
      ⟨2, [(['A', 'T'], 1), (['T', 'A'], 1)], 2⟩ _ (by decide) (by decide)
      rfl⟩

/-! Helper lemmas characterising the Smith-Waterman cell computation. -/

theorem swCell_fst (d u l : Int) :
    (swCell d u l).1 = max (max (max 0 d) u) l := by
  have key : ∀ M : Int, 0 ≤ M → d ≤ M → u ≤ M → l ≤ M →
      (M = 0 ∨ M = d ∨ M = u ∨ M = l) → (swCell d u l).1 = M := by
    intro M h0 hd hu hl hatt
    simp only [swCell]
    split_ifs <;> (try dsimp only at *) <;>
      rcases hatt with hA | hA | hA | hA <;> omega
  have hatt : max (max (max 0 d) u) l = 0 ∨ max (max (max 0 d) u) l = d ∨
      max (max (max 0 d) u) l = u ∨ max (max (max 0 d) u) l = l := by
    rcases max_choice (max (max 0 d) u) l with h | h
    · rcases max_choice (max 0 d) u with h2 | h2
      · rcases max_choice 0 d with h3 | h3
        · exact Or.inl (by rw [h, h2, h3])
        · exact Or.inr (Or.inl (by rw [h, h2, h3]))
      · exact Or.inr (Or.inr (Or.inl (by rw [h, h2])))
    · exact Or.inr (Or.inr (Or.inr h))
  exact key _ (le_max_of_le_left (le_max_of_le_left (le_max_left 0 d)))
    (le_max_of_le_left (le_max_of_le_left (le_max_right 0 d)))
    (le_max_of_le_left (le_max_right _ u)) (le_max_right _ l) hatt

theorem swCell_snd_stop {d u l : Int}
    (h : max (max (max 0 d) u) l = 0) : (swCell d u l).2 = .stop := by
  have hd : d ≤ 0 := le_of_le_of_eq
    (le_max_of_le_left (le_max_of_le_left (le_max_right 0 d))) h
  have hu : u ≤ 0 := le_of_le_of_eq (le_max_of_le_left (le_max_right _ u)) h
  have hl : l ≤ 0 := le_of_le_of_eq (le_max_right _ l) h
  clear h
  simp only [swCell]
  split_ifs <;> (try dsimp only at *) <;> (try rfl) <;> exfalso <;> omega

theorem swCell_snd_diag {d u l : Int}
    (h0 : 0 < max (max (max 0 d) u) l)
    (hd : d = max (max (max 0 d) u) l) : (swCell d u l).2 = .diagonal := by
  have hu : u ≤ d := hd ▸ le_max_of_le_left (le_max_right _ u)
  have hl : l ≤ d := hd ▸ le_max_right _ l
  have hdp : 0 < d := hd ▸ h0
  clear h0 hd
  simp only [swCell]
  split_ifs <;> (try dsimp only at *) <;> (try rfl) <;> exfalso <;> omega

theorem swCell_snd_up {d u l : Int}
    (h0 : 0 < max (max (max 0 d) u) l)
    (hd : d < max (max (max 0 d) u) l)
    (hu : u = max (max (max 0 d) u) l) : (swCell d u l).2 = .up := by
  have hl : l ≤ u := hu ▸ le_max_right _ l
  have hdu : d < u := hu ▸ hd
  have hup : 0 < u := hu ▸ h0
  clear h0 hd hu
  simp only [swCell]
  split_ifs <;> (try dsimp only at *) <;> (try rfl) <;> exfalso <;> omega

theorem swCell_snd_left {d u l : Int}
    (h0 : 0 < max (max (max 0 d) u) l)
    (hd : d < max (max (max 0 d) u) l)
    (hu : u < max (max (max 0 d) u) l)
    (hl : l = max (max (max 0 d) u) l) : (swCell d u l).2 = .left := by
  have hdl : d < l := hl ▸ hd
  have hul : u < l := hl ▸ hu
  have hlp : 0 < l := hl ▸ h0
  clear h0 hd hu hl
  simp only [swCell]
  split_ifs <;> (try dsimp only at *) <;> (try rfl) <;> exfalso <;> omega

theorem swH_succ_succ (s1 s2 : List Char) (sc : ScoringMatrix) (i j : Nat) :
    swH s1 s2 sc (i + 1) (j + 1) =
      (swCell (swH s1 s2 sc i j + sc.score (s1.getD i ' ') (s2.getD j ' '))
        (swH s1 s2 sc i (j + 1) + sc.gapPenalty)
        (swH s1 s2 sc (i + 1) j + sc.gapPenalty)).1 := rfl

theorem swTB_succ_succ (s1 s2 : List Char) (sc : ScoringMatrix) (i j : Nat) :
    swTB s1 s2 sc (i + 1) (j + 1) =
      (swCell (swH s1 s2 sc i j + sc.score (s1.getD i ' ') (s2.getD j ' '))
        (swH s1 s2 sc i (j + 1) + sc.gapPenalty)
        (swH s1 s2 sc (i + 1) j + sc.gapPenalty)).2 := rfl

/-! Claim C2: Smith-Waterman traceback tie-break. -/

/-- Claim C2 counterexample: with the valid scoring matrix (match 1,
mismatch 0, gaps -1), at interior cell (1,1) of aligning A against C the
diagonal candidate 0 + 0 equals the cell maximum H[1][1] = 0, yet the
recorded direction is STOP, not DIAGONAL: the zero floor is tested first
and ties at zero keep STOP. -/
theorem claim_c2_counterexample :
    ScoringMatrix.IsValid ⟨1, 0, -1, -1⟩ ∧
    swH ['A'] ['C'] ⟨1, 0, -1, -1⟩ 1 1 = 0 ∧
    swH ['A'] ['C'] ⟨1, 0, -1, -1⟩ 0 0 +
      ScoringMatrix.score ⟨1, 0, -1, -1⟩ (List.getD ['A'] 0 ' ')
        (List.getD ['C'] 0 ' ') = 0 ∧
    swTB ['A'] ['C'] ⟨1, 0, -1, -1⟩ 1 1 = .stop ∧
    swTB ['A'] ['C'] ⟨1, 0, -1, -1⟩ 1 1 ≠ .diagonal := by
  refine ⟨by decide, by decide, by decide, by decide, by decide⟩

/-- Claim C2 (amended): in the Smith-Waterman fill the interior cell value
is max(0, diag, up, left), and the tie-break keeps the earliest-tested
candidate with the 0/STOP floor tested first: when the cell maximum is 0
the direction is STOP (even when the diagonal candidate ties at 0); when
the maximum is positive, DIAGONAL is recorded whenever the diagonal
candidate attains it, UP when only up attains it, and LEFT when only left
attains it. -/
theorem claim_c2_amended_tiebreak (s1 s2 : List Char) (sc : ScoringMatrix)
    (i j : Nat) :
    swH s1 s2 sc (i + 1) (j + 1) =
      max (max (max 0
        (swH s1 s2 sc i j + sc.score (s1.getD i ' ') (s2.getD j ' ')))
        (swH s1 s2 sc i (j + 1) + sc.gapPenalty))
        (swH s1 s2 sc (i + 1) j + sc.gapPenalty) ∧
    (swH s1 s2 sc (i + 1) (j + 1) = 0 →
      swTB s1 s2 sc (i + 1) (j + 1) = .stop) ∧
    (0 < swH s1 s2 sc (i + 1) (j + 1) →
      (swH s1 s2 sc i j + sc.score (s1.getD i ' ') (s2.getD j ' ') =
          swH s1 s2 sc (i + 1) (j + 1) →
        swTB s1 s2 sc (i + 1) (j + 1) = .diagonal) ∧
      (swH s1 s2 sc i j + sc.score (s1.getD i ' ') (s2.getD j ' ') <
          swH s1 s2 sc (i + 1) (j + 1) →
        swH s1 s2 sc i (j + 1) + sc.gapPenalty =
          swH s1 s2 sc (i + 1) (j + 1) →
        swTB s1 s2 sc (i + 1) (j + 1) = .up) ∧
      (swH s1 s2 sc i j + sc.score (s1.getD i ' ') (s2.getD j ' ') <
          swH s1 s2 sc (i + 1) (j + 1) →
        swH s1 s2 sc i (j + 1) + sc.gapPenalty <
          swH s1 s2 sc (i + 1) (j + 1) →
        swH s1 s2 sc (i + 1) j + sc.gapPenalty =
          swH s1 s2 sc (i + 1) (j + 1) →
        swTB s1 s2 sc (i + 1) (j + 1) = .left)) := by
  have hH := swH_succ_succ s1 s2 sc i j
  rw [swCell_fst] at hH
  rw [swTB_succ_succ]
  refine ⟨hH, ?_, ?_⟩
  · intro h0
    exact swCell_snd_stop (hH ▸ h0)
  · intro hpos
    rw [hH] at hpos
    refine ⟨?_, ?_, ?_⟩
    · intro hd
      exact swCell_snd_diag hpos (hd.trans hH)
    · intro hd hu
      exact swCell_snd_up hpos (hH ▸ hd) (hu.trans hH)
    · intro hd hu hl
      exact swCell_snd_left hpos (hH ▸ hd) (hH ▸ hu) (hl.trans hH)

/-- Claim C2 witness: the amended tie-break theorem applied at cell (1,1)
of aligning A against A with the default DNA scoring: the positive diagonal
candidate 2 attains the maximum and DIAGONAL is recorded; and at cell (1,1)
of A against C with mismatch 0, where the maximum is 0 and STOP is
recorded. -/
theorem claim_c2_witness :
    swTB ['A'] ['A'] ScoringMatrix.defaultDna 1 1 = .diagonal ∧
    swTB ['A'] ['C'] ⟨1, 0, -1, -1⟩ 1 1 = .stop :=
  ⟨((claim_c2_amended_tiebreak ['A'] ['A'] ScoringMatrix.defaultDna 0 0).2.2
      (by decide)).1 (by decide),
    (claim_c2_amended_tiebreak ['A'] ['C'] ⟨1, 0, -1, -1⟩ 0 0).2.1
      (by decide)⟩

/-! Helper lemmas for the score-only refinement claim: the two-row fill
computes exactly the rows of the full Smith-Waterman matrix, and the two
running maxima coincide. -/

theorem soFill_spec (sc : ScoringMatrix) (c : Char) (s2 : List Char)
    (f g : Nat → Int)
    (hg : ∀ j, g (j + 1) =
      max (max (max 0 (f j + sc.score c (s2.getD j ' ')))
        (f (j + 1) + sc.gapPenalty)) (g j + sc.gapPenalty)) :
    ∀ (bs : List Char) (j0 : Nat) (leftv mx : Int), s2.drop j0 = bs →
      leftv = g j0 →
      soFill sc c bs ((List.range' j0 (s2.length + 1 - j0)).map f) leftv mx =
        ((List.range' (j0 + 1) (s2.length - j0)).map g,
          rowMaxFrom g (s2.length - j0) (j0 + 1) mx) := by
  intro bs
  induction bs with
  | nil =>
    intro j0 leftv mx hdrop _
    have hlen : s2.length ≤ j0 := List.drop_eq_nil_iff.mp hdrop
    have h1 : s2.length - j0 = 0 := by omega
    rw [h1]
    simp [soFill, rowMaxFrom]
  | cons b bs ih =>
    intro j0 leftv mx hdrop hleft
    subst hleft
    have hj0 : j0 < s2.length := by
      by_contra hc
      rw [List.drop_eq_nil_iff.mpr (by omega)] at hdrop
      exact List.noConfusion hdrop
    have hgetb : s2.getD j0 ' ' = b := by
      have h0 := List.getElem?_drop s2 j0 0
      rw [hdrop] at h0
      simp only [List.getElem?_cons_zero, Nat.add_zero] at h0
      rw [List.getD_eq_getElem?_getD, ← h0]
      rfl
    have hdrop2 : s2.drop (j0 + 1) = bs := by
      have h0 := List.drop_drop 1 j0 s2
      rw [hdrop] at h0
      simpa using h0.symm
    have hn1 : s2.length + 1 - j0 = (s2.length - j0) + 1 := by omega
    have hn2 : s2.length - j0 = (s2.length - (j0 + 1)) + 1 := by omega
    have hbest : max (max (max 0 (f j0 + sc.score c b))
        (f (j0 + 1) + sc.gapPenalty)) (g j0 + sc.gapPenalty) = g (j0 + 1) := by
      rw [hg j0, hgetb]
    have hrec := ih (j0 + 1) (g (j0 + 1))
      (if g (j0 + 1) > mx then g (j0 + 1) else mx) hdrop2 rfl
    have hn3 : s2.length + 1 - (j0 + 1) = (s2.length - (j0 + 1)) + 1 := by
      omega
    rw [hn3, List.range'_succ, List.map_cons] at hrec
    rw [hn1, List.range'_succ, List.map_cons, hn2, List.range'_succ,
      List.map_cons]
    simp only [soFill, List.headI_cons, List.tail_cons, rowMaxFrom, hbest,
      hrec, List.map_cons]

theorem soRows_spec (s1 s2 : List Char) (sc : ScoringMatrix) :
    ∀ (cs : List Char) (i : Nat) (mx : Int), s1.drop i = cs →
      soRows sc s2 cs ((List.range (s2.length + 1)).map (swH s1 s2 sc i))
          mx =
        matMaxFrom (swH s1 s2 sc) (s1.length - i) (i + 1) s2.length mx := by
  intro cs
  induction cs with
  | nil =>
    intro i mx hdrop
    have hlen : s1.length ≤ i := List.drop_eq_nil_iff.mp hdrop
    have h0 : s1.length - i = 0 := by omega
    rw [h0]
    rfl
  | cons c cs ih =>
    intro i mx hdrop
    have hi : i < s1.length := by
      by_contra hc
      rw [List.drop_eq_nil_iff.mpr (by omega)] at hdrop
      exact List.noConfusion hdrop
    have hgetc : s1.getD i ' ' = c := by
      have h0 := List.getElem?_drop s1 i 0
      rw [hdrop] at h0
      simp only [List.getElem?_cons_zero, Nat.add_zero] at h0
      rw [List.getD_eq_getElem?_getD, ← h0]
      rfl
    have hdrop2 : s1.drop (i + 1) = cs := by
      have h0 := List.drop_drop 1 i s1
      rw [hdrop] at h0
      simpa using h0.symm
    have hfill := soFill_spec sc c s2 (swH s1 s2 sc i) (swH s1 s2 sc (i + 1))
      (fun j => by rw [swH_succ_succ, swCell_fst, hgetc]) s2 0 0 mx rfl rfl
    simp only [Nat.sub_zero] at hfill
    rw [← List.range_eq_range'] at hfill
    have hprev : (0 : Int) :: (List.range' 1 s2.length).map
        (swH s1 s2 sc (i + 1)) =
        (List.range (s2.length + 1)).map (swH s1 s2 sc (i + 1)) := by
      rw [List.range_eq_range', List.range'_succ, List.map_cons]
      rfl
    have hn : s1.length - i = (s1.length - (i + 1)) + 1 := by omega
    rw [hn]
    simp only [soRows, matMaxFrom, hfill, hprev]
    exact ih (i + 1) _ hdrop2

theorem alignmentScoreOnly_eq_swScore (s1 s2 : List Char)
    (sc : ScoringMatrix) :
    alignmentScoreOnly s1 s2 sc = smithWatermanScore s1 s2 sc := by
  unfold alignmentScoreOnly smithWatermanScore
  have hrep : List.replicate (s2.length + 1) (0 : Int) =
      (List.range (s2.length + 1)).map (swH s1 s2 sc 0) := by
    rw [show swH s1 s2 sc 0 = Function.const Nat (0 : Int) from rfl,
      List.map_const, List.length_range]
  rw [hrep]
  have h := soRows_spec s1 s2 sc s1 0 0 rfl
  simpa using h

/-! Claim C1: score-only variant is score-equivalent to Smith-Waterman. -/

/-- Claim C1: for every pair of non-empty valid sequences and every valid
scoring matrix, the two-row alignment_score_only variant returns exactly the
score of the full-matrix smith_waterman result (the running maximum of the
fill, which is the score field of the returned Alignment). -/
theorem claim_c1_score_only_equiv (s t : Sequence) (sc : ScoringMatrix)
    (_hv1 : s.isValid = true) (_hv2 : t.isValid = true)
    (_hne1 : s.bases ≠ []) (_hne2 : t.bases ≠ []) (_hsc : sc.IsValid) :
    alignmentScoreOnly s.bases t.bases sc =
      smithWatermanScore s.bases t.bases sc :=
  alignmentScoreOnly_eq_swScore s.bases t.bases sc

/-- Claim C1 witness: the equivalence applied to the DNA sequences GATTACA
and GCATGCU-free pair ATCG and TACG under the default scoring. -/
theorem claim_c1_witness :
    alignmentScoreOnly ['A', 'T', 'C', 'G'] ['T', 'A', 'C', 'G']
        ScoringMatrix.defaultDna =
      smithWatermanScore ['A', 'T', 'C', 'G'] ['T', 'A', 'C', 'G']
        ScoringMatrix.defaultDna :=
  claim_c1_score_only_equiv ⟨['A', 'T', 'C', 'G'], SequenceType.DNA⟩
    ⟨['T', 'A', 'C', 'G'], SequenceType.DNA⟩ ScoringMatrix.defaultDna
    (by decide) (by decide) (by decide) (by decide) (by decide)

/-! Helper lemmas for the Needleman-Wunsch traceback claims. -/

theorem nwCell_snd_ne_stop (d u l : Int) : (nwCell d u l).2 ≠ .stop := by
  simp only [nwCell]
  split_ifs <;> simp

theorem nwTB_interior_ne_stop (s1 s2 : List Char) (sc : ScoringMatrix)
    (i j : Nat) : nwTB s1 s2 sc (i + 1) (j + 1) ≠ .stop :=
  nwCell_snd_ne_stop _ _ _

theorem no_gap_of_valid {s : Sequence} (h : s.isValid = true) :
    '-' ∉ s.bases := by
  intro hm
  have hmem := isValid_mem h _ hm
  unfold basesFor at hmem
  split at hmem <;> simp [validRnaBases, validDnaBases] at hmem

theorem tbGlobal_spec (s1 s2 : List Char)
    (tb : Nat → Nat → AlignDirection)
    (htb : ∀ i j : Nat, tb (i + 1) (j + 1) ≠ .stop)
    (hg1 : '-' ∉ s1) (hg2 : '-' ∉ s2) :
    ∀ (fuel i j : Nat), i + j ≤ fuel → i ≤ s1.length → j ≤ s2.length →
      ((tbGlobalAux s1 s2 tb fuel i j).1.filter (fun x => x ≠ '-') =
        s1.take i) ∧
      ((tbGlobalAux s1 s2 tb fuel i j).2.filter (fun x => x ≠ '-') =
        s2.take j) ∧
      (tbGlobalAux s1 s2 tb fuel i j).1.length =
        (tbGlobalAux s1 s2 tb fuel i j).2.length := by
  intro fuel
  induction fuel with
  | zero =>
    intro i j hf _ _
    have hi : i = 0 := by omega
    have hj : j = 0 := by omega
    subst hi; subst hj
    exact ⟨rfl, rfl, rfl⟩
  | succ fuel ih =>
    intro i j hf hi hj
    have hchar1 : ∀ i0 : Nat, i0 < s1.length →
        s1.getD i0 ' ' ∈ s1 := by
      intro i0 h0
      rw [List.getD_eq_getElem s1 ' ' h0]
      exact List.getElem_mem h0
    have hchar2 : ∀ j0 : Nat, j0 < s2.length →
        s2.getD j0 ' ' ∈ s2 := by
      intro j0 h0
      rw [List.getD_eq_getElem s2 ' ' h0]
      exact List.getElem_mem h0
    match i, j with
    | 0, 0 => exact ⟨rfl, rfl, rfl⟩
    | 0, j + 1 =>
      obtain ⟨ha1, ha2, hlen⟩ := ih 0 j (by omega) (by omega) (by omega)
      have hc2 : s2.getD j ' ' ≠ '-' := fun he =>
        hg2 (he ▸ hchar2 j (by omega))
      refine ⟨?_, ?_, ?_⟩
      · simp only [tbGlobalAux, List.filter_append, ha1]
        simp
      · simp only [tbGlobalAux, List.filter_append, ha2]
        simp only [List.filter_cons, List.filter_nil]
        rw [if_pos (by simpa using hc2)]
        rw [List.getD_eq_getElem s2 ' ' (by omega), ← List.concat_eq_append]
        exact List.take_concat_get s2 j (by omega)
      · simp only [tbGlobalAux, List.length_append, List.length_singleton,
          hlen]
    | i + 1, 0 =>
      obtain ⟨ha1, ha2, hlen⟩ := ih i 0 (by omega) (by omega) (by omega)
      have hc1 : s1.getD i ' ' ≠ '-' := fun he =>
        hg1 (he ▸ hchar1 i (by omega))
      refine ⟨?_, ?_, ?_⟩
      · simp only [tbGlobalAux, List.filter_append, ha1]
        simp only [List.filter_cons, List.filter_nil]
        rw [if_pos (by simpa using hc1)]
        rw [List.getD_eq_getElem s1 ' ' (by omega), ← List.concat_eq_append]
        exact List.take_concat_get s1 i (by omega)
      · simp only [tbGlobalAux, List.filter_append, ha2]
        simp
      · simp only [tbGlobalAux, List.length_append, List.length_singleton,
          hlen]
    | i + 1, j + 1 =>
      have hc1 : s1.getD i ' ' ≠ '-' := fun he =>
        hg1 (he ▸ hchar1 i (by omega))
      have hc2 : s2.getD j ' ' ≠ '-' := fun he =>
        hg2 (he ▸ hchar2 j (by omega))
      have htake1 : s1.take i ++ [s1.getD i ' '] = s1.take (i + 1) := by
        rw [List.getD_eq_getElem s1 ' ' (by omega), ← List.concat_eq_append]
        exact List.take_concat_get s1 i (by omega)
      have htake2 : s2.take j ++ [s2.getD j ' '] = s2.take (j + 1) := by
        rw [List.getD_eq_getElem s2 ' ' (by omega), ← List.concat_eq_append]
        exact List.take_concat_get s2 j (by omega)
      cases hdir : tb (i + 1) (j + 1) with
      | stop => exact absurd hdir (htb i j)
      | diagonal =>
        obtain ⟨ha1, ha2, hlen⟩ := ih i j (by omega) (by omega) (by omega)
        refine ⟨?_, ?_, ?_⟩
        · simp only [tbGlobalAux, hdir, List.filter_append, ha1,
            List.filter_cons, List.filter_nil]
          rw [if_pos (by simpa using hc1)]
          exact htake1
        · simp only [tbGlobalAux, hdir, List.filter_append, ha2,
            List.filter_cons, List.filter_nil]
          rw [if_pos (by simpa using hc2)]
          exact htake2
        · simp only [tbGlobalAux, hdir, List.length_append,
            List.length_singleton, hlen]
      | up =>
        obtain ⟨ha1, ha2, hlen⟩ := ih i (j + 1) (by omega) (by omega)
          (by omega)
        refine ⟨?_, ?_, ?_⟩
        · simp only [tbGlobalAux, hdir, List.filter_append, ha1,
            List.filter_cons, List.filter_nil]
          rw [if_pos (by simpa using hc1)]
          exact htake1
        · simp only [tbGlobalAux, hdir, List.filter_append, ha2]
          simp
        · simp only [tbGlobalAux, hdir, List.length_append,
            List.length_singleton, hlen]
      | left =>
        obtain ⟨ha1, ha2, hlen⟩ := ih (i + 1) j (by omega) (by omega)
          (by omega)
        refine ⟨?_, ?_, ?_⟩
        · simp only [tbGlobalAux, hdir, List.filter_append, ha1]
          simp
        · simp only [tbGlobalAux, hdir, List.filter_append, ha2,
            List.filter_cons, List.filter_nil]
          rw [if_pos (by simpa using hc2)]
          exact htake2
        · simp only [tbGlobalAux, hdir, List.length_append,
            List.length_singleton, hlen]

theorem needlemanWunsch_consumes (s1 s2 : List Char) (sc : ScoringMatrix)
    (hg1 : '-' ∉ s1) (hg2 : '-' ∉ s2) :
    (needlemanWunsch s1 s2 sc).alignedSeq1.filter (fun x => x ≠ '-') = s1 ∧
    (needlemanWunsch s1 s2 sc).alignedSeq2.filter (fun x => x ≠ '-') = s2 ∧
    (needlemanWunsch s1 s2 sc).alignedSeq1.length =
      (needlemanWunsch s1 s2 sc).alignedSeq2.length := by
  have h := tbGlobal_spec s1 s2 (nwTB s1 s2 sc)
    (nwTB_interior_ne_stop s1 s2 sc) hg1 hg2 (s1.length + s2.length)
    s1.length s2.length le_rfl le_rfl le_rfl
  simpa [needlemanWunsch, tracebackGlobal, List.take_length] using h

theorem count_gap_add_filter (l : List Char) :
    l.count '-' + (l.filter (fun x => x ≠ '-')).length = l.length := by
  induction l with
  | nil => rfl
  | cons c rest ih =>
    by_cases h : c = '-' <;>
      simp [List.count_cons, List.filter_cons, h] at ih ⊢ <;> omega

/-! Claims C4 and C10: the Needleman-Wunsch global alignment. -/

/-- Claim C10: the global alignment consumes both inputs entirely — removing
the gap symbols from the first aligned row gives back the first sequence and
likewise for the second — and the interior STOP branch of the traceback is
unreachable because every interior traceback cell holds DIAGONAL, UP or
LEFT. -/
theorem claim_c10_global_consumes_all (s t : Sequence) (sc : ScoringMatrix)
    (hv1 : s.isValid = true) (hv2 : t.isValid = true)
    (_hne1 : s.bases ≠ []) (_hne2 : t.bases ≠ []) :
    (needlemanWunsch s.bases t.bases sc).alignedSeq1.filter
      (fun x => x ≠ '-') = s.bases ∧
    (needlemanWunsch s.bases t.bases sc).alignedSeq2.filter
      (fun x => x ≠ '-') = t.bases ∧
    (∀ i j : Nat, nwTB s.bases t.bases sc (i + 1) (j + 1) ≠ .stop) :=
  have h := needlemanWunsch_consumes s.bases t.bases sc
    (no_gap_of_valid hv1) (no_gap_of_valid hv2)
  ⟨h.1, h.2.1, nwTB_interior_ne_stop s.bases t.bases sc⟩

/-- Claim C10 witness: the consumption theorem applied to the DNA sequences
AT and A, with the STOP-unreachable part instantiated at cell (1,1). -/
theorem claim_c10_witness :
    (needlemanWunsch ['A', 'T'] ['A']
      ScoringMatrix.defaultDna).alignedSeq1.filter (fun x => x ≠ '-') =
        ['A', 'T'] ∧
    (needlemanWunsch ['A', 'T'] ['A']
      ScoringMatrix.defaultDna).alignedSeq2.filter (fun x => x ≠ '-') =
        ['A'] ∧
    nwTB ['A', 'T'] ['A'] ScoringMatrix.defaultDna 1 1 ≠ .stop :=
  have h := claim_c10_global_consumes_all ⟨['A', 'T'], SequenceType.DNA⟩
    ⟨['A'], SequenceType.DNA⟩ ScoringMatrix.defaultDna (by decide)
    (by decide) (by decide) (by decide)
  ⟨h.1, h.2.1, h.2.2 0 0⟩

/-- Claim C4: needleman_wunsch always returns aligned rows of equal length,
and the concrete global alignment of ATCGATCG against ATCG contains at least
4 gap symbols across the two rows. -/
theorem claim_c4_nw_lengths_and_gaps :
    (∀ (s t : Sequence) (sc : ScoringMatrix), s.isValid = true →
      t.isValid = true → s.bases ≠ [] → t.bases ≠ [] →
      (needlemanWunsch s.bases t.bases sc).alignedSeq1.length =
        (needlemanWunsch s.bases t.bases sc).alignedSeq2.length) ∧
    4 ≤ (needlemanWunsch "ATCGATCG".toList "ATCG".toList
      ScoringMatrix.defaultDna).totalGaps := by
  constructor
  · intro s t sc hv1 hv2 _ _
    exact (needlemanWunsch_consumes s.bases t.bases sc
      (no_gap_of_valid hv1) (no_gap_of_valid hv2)).2.2
  · obtain ⟨h1, h2, hlen⟩ := needlemanWunsch_consumes "ATCGATCG".toList
      "ATCG".toList ScoringMatrix.defaultDna (by decide) (by decide)
    have hc1 := count_gap_add_filter
      (needlemanWunsch "ATCGATCG".toList "ATCG".toList
        ScoringMatrix.defaultDna).alignedSeq1
    have hc2 := count_gap_add_filter
      (needlemanWunsch "ATCGATCG".toList "ATCG".toList
        ScoringMatrix.defaultDna).alignedSeq2
    rw [h1] at hc1
    rw [h2] at hc2
    have hl1 : ("ATCGATCG".toList).length = 8 := rfl
    have hl2 : ("ATCG".toList).length = 4 := rfl
    rw [hl1] at hc1
    rw [hl2] at hc2
    unfold Alignment.totalGaps Alignment.gapsSeq1 Alignment.gapsSeq2
    omega

/-- Claim C4 witness: the equal-length part applied to the DNA sequences AT
and G under the default scoring. -/
theorem claim_c4_witness :
    (needlemanWunsch ['A', 'T'] ['G']
      ScoringMatrix.defaultDna).alignedSeq1.length =
    (needlemanWunsch ['A', 'T'] ['G']
      ScoringMatrix.defaultDna).alignedSeq2.length :=
  claim_c4_nw_lengths_and_gaps.1 ⟨['A', 'T'], SequenceType.DNA⟩
    ⟨['G'], SequenceType.DNA⟩ ScoringMatrix.defaultDna (by decide)
    (by decide) (by decide) (by decide)

/-! Helper lemmas for the best-alignment selection claim. -/

theorem enumFrom_length {α : Type} :
    ∀ (l : List α) (start : Nat), (enumFrom start l).length = l.length := by
  intro l
  induction l with
  | nil => intro start; rfl
  | cons a as ih => intro start; simpa [enumFrom] using ih (start + 1)

theorem pymaxRec_spec (g : Nat → Int) :
    ∀ (xs : List (Nat × Int)) (cur : Nat × Int) (start : Nat),
      xs = (List.range' start xs.length).map (fun j => (j, g j)) →
      cur.2 = g cur.1 → cur.1 < start →
      (∀ j, j < cur.1 → g j < cur.2) →
      (∀ j, cur.1 < j → j < start → g j ≤ cur.2) →
      (pymaxRec cur xs).2 = g (pymaxRec cur xs).1 ∧
      (pymaxRec cur xs).1 < start + xs.length ∧
      (∀ j, j < (pymaxRec cur xs).1 → g j < (pymaxRec cur xs).2) ∧
      (∀ j, j < start + xs.length → g j ≤ (pymaxRec cur xs).2) := by
  intro xs
  induction xs with
  | nil =>
    intro cur start _ hc hs hlt hle
    refine ⟨hc, by simpa using hs, hlt, ?_⟩
    intro j hj
    simp only [List.length_nil, Nat.add_zero] at hj
    rcases lt_trichotomy j cur.1 with h | h | h
    · exact le_of_lt (hc ▸ hlt j h)
    · exact le_of_eq (h ▸ hc.symm)
    · exact hle j h hj
  | cons y ys ih =>
    intro cur start hxs hc hs hlt hle
    simp only [List.length_cons, List.range'_succ, List.map_cons] at hxs
    obtain ⟨hy, hys⟩ := List.cons.inj hxs
    subst hy
    simp only [pymaxRec, List.length_cons]
    by_cases hgt : g start > cur.2
    · rw [if_pos hgt]
      have hres := ih (start, g start) (start + 1) hys rfl (by omega)
        (fun j hj => by
          rcases lt_trichotomy j cur.1 with h | h | h
          · exact lt_trans (hlt j h) (hc ▸ hgt)
          · exact lt_of_le_of_lt (le_of_eq (h ▸ hc.symm)) (hc ▸ hgt)
          · exact lt_of_le_of_lt (hle j h (by simpa using hj)) (hc ▸ hgt))
        (fun j h1 h2 => by omega)
      refine ⟨hres.1, by have h2 := hres.2.1; omega, hres.2.2.1, ?_⟩
      intro j hj
      exact hres.2.2.2 j (by omega)
    · rw [if_neg hgt]
      have hres := ih cur (start + 1) hys hc (by omega) hlt
        (fun j h1 h2 => by
          rcases Nat.lt_succ_iff_lt_or_eq.mp h2 with h | h
          · exact hle j h1 h
          · exact h ▸ le_of_not_lt hgt)
      refine ⟨hres.1, by have h2 := hres.2.1; omega, hres.2.2.1, ?_⟩
      intro j hj
      exact hres.2.2.2 j (by omega)

theorem enumFrom_map_swScore (q : List Char) (sc : ScoringMatrix) :
    ∀ (ts : List (List Char)) (start : Nat),
      (enumFrom start ts).map
        (fun p => (p.1, smithWatermanScore q p.2 sc)) =
      (List.range' start ts.length).map
        (fun j => (j, smithWatermanScore q (ts.getD (j - start) []) sc)) := by
  intro ts
  induction ts with
  | nil => intro start; rfl
  | cons t ts ih =>
    intro start
    simp only [enumFrom, List.map_cons, List.length_cons, List.range'_succ]
    refine congrArg₂ List.cons ?_ ?_
    · simp
    · rw [ih (start + 1)]
      apply List.map_congr_left
      intro j hj
      have hs := (List.mem_range'_1.mp hj).1
      have hsub : j - start = (j - (start + 1)) + 1 := by omega
      rw [hsub, List.getD_cons_succ]

theorem findBest_first_max (q : List Char) (ts : List (List Char))
    (sc : ScoringMatrix) (hne : ts ≠ []) :
    ∃ i s, findBestAlignment q ts sc = some (i, s) ∧ i < ts.length ∧
      s = smithWatermanScore q (ts.getD i []) sc ∧
      (∀ j, j < ts.length →
        smithWatermanScore q (ts.getD j []) sc ≤ s) ∧
      (∀ j, j < i → smithWatermanScore q (ts.getD j []) sc < s) := by
  match ts with
  | [] => exact absurd rfl hne
  | t :: rest =>
    have henum := enumFrom_map_swScore q sc rest 1
    have hys : (enumFrom 1 rest).map
        (fun p => (p.1, smithWatermanScore q p.2 sc)) =
        (List.range' 1 rest.length).map
          (fun j => (j, smithWatermanScore q ((t :: rest).getD j []) sc)) := by
      rw [henum]
      apply List.map_congr_left
      intro j hj
      have hs := (List.mem_range'_1.mp hj).1
      have hsub : j - 1 + 1 = j := by omega
      have hstep : rest.getD (j - 1) ([] : List Char) =
          (t :: rest).getD j ([] : List Char) := by
        rw [← hsub]
        exact (List.getD_cons_succ).symm
      rw [hstep]
    have hres := pymaxRec_spec
      (fun j => smithWatermanScore q ((t :: rest).getD j []) sc)
      ((enumFrom 1 rest).map (fun p => (p.1, smithWatermanScore q p.2 sc)))
      (0, smithWatermanScore q t sc) 1
      (by rw [hys]; simp)
      (by simp) (by omega) (fun j hj => absurd hj (by omega))
      (fun j h1 h2 => absurd (lt_of_le_of_lt (by omega : 1 ≤ j) h2)
        (lt_irrefl 1))
    simp only [List.length_map] at hres
    rw [enumFrom_length rest 1] at hres
    refine ⟨_, _, ?_, ?_, hres.1, ?_, hres.2.2.1⟩
    · simp only [findBestAlignment, alignAgainstMultiple, enumFrom,
        List.map_cons]
    · simpa [Nat.add_comm] using hres.2.1
    · intro j hj
      exact hres.2.2.2 j (by simpa [Nat.add_comm] using hj)

/-! Bounds on the Smith-Waterman score: every local alignment score is at
most matchScore times the query length, and the self-alignment attains it. -/

theorem rowMaxFrom_ge_acc (g : Nat → Int) :
    ∀ (count j : Nat) (acc : Int), acc ≤ rowMaxFrom g count j acc := by
  intro count
  induction count with
  | zero => intro j acc; exact le_rfl
  | succ count ih =>
    intro j acc
    simp only [rowMaxFrom]
    by_cases h : g j > acc
    · rw [if_pos h]
      exact le_trans (le_of_lt h) (ih (j + 1) (g j))
    · rw [if_neg h]
      exact ih (j + 1) acc

theorem rowMaxFrom_ge_cell (g : Nat → Int) :
    ∀ (count j : Nat) (acc : Int) (j' : Nat), j ≤ j' → j' < j + count →
      g j' ≤ rowMaxFrom g count j acc := by
  intro count
  induction count with
  | zero => intro j acc j' h1 h2; omega
  | succ count ih =>
    intro j acc j' h1 h2
    rcases eq_or_lt_of_le h1 with rfl | hlt
    · simp only [rowMaxFrom]
      have hstep : g j ≤ if g j > acc then g j else acc := by
        split_ifs <;> omega
      exact le_trans hstep (rowMaxFrom_ge_acc g count (j + 1) _)
    · simp only [rowMaxFrom]
      exact ih (j + 1) _ j' (by omega) (by omega)

theorem rowMaxFrom_le_bound (g : Nat → Int) (B : Int) :
    ∀ (count j : Nat) (acc : Int), acc ≤ B → (∀ j', g j' ≤ B) →
      rowMaxFrom g count j acc ≤ B := by
  intro count
  induction count with
  | zero => intro j acc hacc _; exact hacc
  | succ count ih =>
    intro j acc hacc hcell
    simp only [rowMaxFrom]
    apply ih (j + 1) _ _ hcell
    split_ifs with h
    · exact hcell j
    · exact hacc

theorem matMaxFrom_ge_acc (f : Nat → Nat → Int) :
    ∀ (count i n : Nat) (acc : Int), acc ≤ matMaxFrom f count i n acc := by
  intro count
  induction count with
  | zero => intro i n acc; exact le_rfl
  | succ count ih =>
    intro i n acc
    simp only [matMaxFrom]
    exact le_trans (rowMaxFrom_ge_acc (f i) n 1 acc) (ih (i + 1) n _)

theorem matMaxFrom_ge_cell (f : Nat → Nat → Int) :
    ∀ (count i n : Nat) (acc : Int) (i' j' : Nat), i ≤ i' → i' < i + count →
      1 ≤ j' → j' < 1 + n → f i' j' ≤ matMaxFrom f count i n acc := by
  intro count
  induction count with
  | zero => intro i n acc i' j' h1 h2 _ _; omega
  | succ count ih =>
    intro i n acc i' j' h1 h2 h3 h4
    rcases eq_or_lt_of_le h1 with rfl | hlt
    · simp only [matMaxFrom]
      exact le_trans (rowMaxFrom_ge_cell (f i) n 1 acc j' h3 h4)
        (matMaxFrom_ge_acc f count (i + 1) n _)
    · simp only [matMaxFrom]
      exact ih (i + 1) n _ i' j' (by omega) (by omega) h3 h4

theorem matMaxFrom_le_bound (f : Nat → Nat → Int) (B : Int) :
    ∀ (count i n : Nat) (acc : Int), acc ≤ B →
      (∀ i' j', i ≤ i' → i' < i + count → f i' j' ≤ B) →
      matMaxFrom f count i n acc ≤ B := by
  intro count
  induction count with
  | zero => intro i n acc hacc _; exact hacc
  | succ count ih =>
    intro i n acc hacc hcell
    simp only [matMaxFrom]
    exact ih (i + 1) n _ (rowMaxFrom_le_bound (f i) B n 1 acc hacc
      (fun j' => hcell i j' le_rfl (by omega)))
      (fun i' j' h1 h2 => hcell i' j' (by omega) (by omega))

theorem swH_le (q t : List Char) (sc : ScoringMatrix) (hsc : sc.IsValid) :
    ∀ i j : Nat, swH q t sc i j ≤ sc.matchScore * (i : Int) := by
  intro i
  induction i with
  | zero =>
    intro j
    simp [swH]
  | succ i ih =>
    intro j
    induction j with
    | zero =>
      show (0 : Int) ≤ _
      exact mul_nonneg (le_of_lt hsc.1) (by positivity)
    | succ j ihj =>
      rw [swH_succ_succ, swCell_fst]
      have hscore : sc.score (q.getD i ' ') (t.getD j ' ') ≤
          sc.matchScore := by
        unfold ScoringMatrix.score
        split_ifs
        · exact le_rfl
        · exact le_trans hsc.2.1 (le_of_lt hsc.1)
      have hmul : sc.matchScore * (((i + 1 : Nat)) : Int) =
          sc.matchScore * (i : Int) + sc.matchScore := by
        push_cast
        ring
      have h1 := ih j
      have h2 := ih (j + 1)
      have h3 := ihj
      have hgap : sc.gapPenalty ≤ 0 := hsc.2.2.1
      refine max_le (max_le (max_le ?_ ?_) ?_) ?_
      · exact mul_nonneg (le_of_lt hsc.1) (by positivity)
      · rw [hmul]; linarith
      · rw [hmul]; linarith [le_of_lt hsc.1]
      · linarith

theorem swH_self_ge (q : List Char) (sc : ScoringMatrix) :
    ∀ i : Nat, (i : Int) * sc.matchScore ≤ swH q q sc i i := by
  intro i
  induction i with
  | zero => simp [swH]
  | succ i ih =>
    have hd : swH q q sc i i + sc.score (q.getD i ' ') (q.getD i ' ') =
        swH q q sc i i + sc.matchScore := by
      unfold ScoringMatrix.score
      rw [if_pos rfl]
    rw [swH_succ_succ, swCell_fst]
    calc ((i + 1 : Nat) : Int) * sc.matchScore
        = (i : Int) * sc.matchScore + sc.matchScore := by push_cast; ring
      _ ≤ swH q q sc i i + sc.matchScore := by linarith [ih]
      _ = swH q q sc i i + sc.score (q.getD i ' ') (q.getD i ' ') := hd.symm
      _ ≤ _ := le_max_of_le_left (le_max_of_le_left (le_max_right _ _))

theorem swScore_le_bound (q t : List Char) (sc : ScoringMatrix)
    (hsc : sc.IsValid) :
    smithWatermanScore q t sc ≤ sc.matchScore * (q.length : Int) := by
  apply matMaxFrom_le_bound
  · exact mul_nonneg (le_of_lt hsc.1) (by positivity)
  · intro i' j' h1 h2
    have hle : i' ≤ q.length := by omega
    calc swH q t sc i' j' ≤ sc.matchScore * (i' : Int) :=
        swH_le q t sc hsc i' j'
      _ ≤ sc.matchScore * (q.length : Int) :=
        mul_le_mul_of_nonneg_left (by exact_mod_cast hle)
          (le_of_lt hsc.1)

theorem swScore_self_ge (q : List Char) (sc : ScoringMatrix)
    (hq : q ≠ []) :
    sc.matchScore * (q.length : Int) ≤ smithWatermanScore q q sc := by
  have hlen : 1 ≤ q.length := List.length_pos.mpr hq
  have h1 := matMaxFrom_ge_cell (swH q q sc) q.length 1 q.length 0
    q.length q.length (by omega) (by omega) (by omega) (by omega)
  have h2 := swH_self_ge q sc q.length
  calc sc.matchScore * (q.length : Int)
      = (q.length : Int) * sc.matchScore := by ring
    _ ≤ swH q q sc q.length q.length := h2
    _ ≤ _ := h1

/-! Claim C9: best-alignment selection. -/

/-- Claim C9: on a non-empty target list, find_best_alignment returns the
index-score pair of maximal alignment score with ties broken by first
occurrence in target order (every earlier target scores strictly lower);
and when the first target is identical to the query and the scoring matrix
is valid, index 0 is returned, because no target can score above the
query aligned against itself. -/
theorem claim_c9_find_best :
    (∀ (q : Sequence) (ts : List Sequence) (sc : ScoringMatrix),
      ts ≠ [] →
      ∃ i s, findBestAlignment q.bases (ts.map Sequence.bases) sc =
          some (i, s) ∧
        i < ts.length ∧
        s = smithWatermanScore q.bases
          ((ts.map Sequence.bases).getD i []) sc ∧
        (∀ j, j < ts.length →
          smithWatermanScore q.bases ((ts.map Sequence.bases).getD j []) sc
            ≤ s) ∧
        (∀ j, j < i →
          smithWatermanScore q.bases ((ts.map Sequence.bases).getD j []) sc
            < s)) ∧
    (∀ (q : Sequence) (rest : List Sequence) (sc : ScoringMatrix),
      sc.IsValid → q.bases ≠ [] →
      ∃ s, findBestAlignment q.bases
        (q.bases :: rest.map Sequence.bases) sc = some (0, s)) := by
  constructor
  · intro q ts sc hne
    have hne2 : ts.map Sequence.bases ≠ [] := by
      simpa using hne
    obtain ⟨i, s, heq, hi, hs, hmax, hfirst⟩ :=
      findBest_first_max q.bases (ts.map Sequence.bases) sc hne2
    rw [List.length_map] at hi
    refine ⟨i, s, heq, hi, hs, ?_, hfirst⟩
    intro j hj
    exact hmax j (by simpa using hj)
  · intro q rest sc hsc hq
    obtain ⟨i, s, heq, hi, hs, hmax, hfirst⟩ :=
      findBest_first_max q.bases (q.bases :: rest.map Sequence.bases) sc
        (by simp)
    have hzero : i = 0 := by
      by_contra h0
      have hpos : 0 < i := Nat.pos_of_ne_zero h0
      have hlt := hfirst 0 hpos
      simp only [List.getD_cons_zero] at hlt
      have hself : sc.matchScore * (q.bases.length : Int) ≤
          smithWatermanScore q.bases q.bases sc :=
        swScore_self_ge q.bases sc hq
      have hub : smithWatermanScore q.bases
          ((q.bases :: rest.map Sequence.bases).getD i []) sc ≤
          sc.matchScore * (q.bases.length : Int) :=
        swScore_le_bound q.bases _ sc hsc
      rw [← hs] at hub
      linarith
    subst hzero
    exact ⟨s, heq⟩

/-- Claim C9 witness: the selection theorem applied twice — the general
first-maximum property on the target list [GG, AT] for query AT, and the
index-0 property when the first target equals the query AT. -/
theorem claim_c9_witness :
    (∃ i s, findBestAlignment ['A', 'T'] [['G', 'G'], ['A', 'T']]
        ScoringMatrix.defaultDna = some (i, s) ∧ i < 2 ∧
      s = smithWatermanScore ['A', 'T']
        ([['G', 'G'], ['A', 'T']].getD i []) ScoringMatrix.defaultDna ∧
      (∀ j, j < 2 → smithWatermanScore ['A', 'T']
        ([['G', 'G'], ['A', 'T']].getD j []) ScoringMatrix.defaultDna ≤ s) ∧
      (∀ j, j < i → smithWatermanScore ['A', 'T']
        ([['G', 'G'], ['A', 'T']].getD j []) ScoringMatrix.defaultDna < s)) ∧
    (∃ s, findBestAlignment ['A', 'T'] [['A', 'T'], ['G', 'G']]
      ScoringMatrix.defaultDna = some (0, s)) :=
  ⟨claim_c9_find_best.1 ⟨['A', 'T'], SequenceType.DNA⟩
      [⟨['G', 'G'], SequenceType.DNA⟩, ⟨['A', 'T'], SequenceType.DNA⟩]
      ScoringMatrix.defaultDna (by decide),
    claim_c9_find_best.2 ⟨['A', 'T'], SequenceType.DNA⟩
      [⟨['G', 'G'], SequenceType.DNA⟩] ScoringMatrix.defaultDna
      (by decide) (by decide)⟩

end BioFlow
